import Mathlib

/-!
Verification of the version-bump core of `crosspmv` (`src/cli/src/package_managers/cargo.rs`
and `src/cli/src/package_managers/error.rs`).

The functions `set_package_version`, `set_cargo_toml_version`,
`cargo_update_lock_file_command`, the error enum `CargoTomlError` with its `Display`
instance, and the aggregation type `PackageManagerError` are embedded directly from the
Rust source.  The structured-document parser and serializer (`crate::parsers::toml`,
backed by the external `toml_edit` crate) are not part of the provided sources; they are
modelled from the spec as a format-preserving, line-based TOML subset: parsing keeps the
exact source text of every token, an unmodified document reserializes byte-identically,
and replacing a value changes only that value's token span.

All text is processed as `List Char`; `String` appears only at the API boundary,
matching the Rust signatures.
-/

set_option linter.unusedVariables false

namespace Crosspmv

/-- Inline whitespace characters of the modelled TOML subset (space and tab). -/
def isWsChar (c : Char) : Bool := c = ' ' || c = '\t'

/-- Characters allowed in a bare TOML key (letters, digits, `-`, `_`). -/
def isKeyChar (c : Char) : Bool := c.isAlphanum || c = '-' || c = '_'

/-- Escape a single character for inclusion in a basic (double-quoted) TOML string.
Modelled from the spec: the external serializer writes a newly constructed string
scalar as a double-quoted token, escaping quotes, backslashes and control characters. -/
def escChar (c : Char) : List Char :=
  if c = '"' || c = '\\' then ['\\', c]
  else if c = '\n' then ['\\', 'n']
  else if c = '\t' then ['\\', 't']
  else if c = '\r' then ['\\', 'r']
  else [c]

/-- Escape a whole string for inclusion in a basic (double-quoted) TOML string. -/
def escape (s : List Char) : List Char := s.foldr (fun c acc => escChar c ++ acc) []

/-- The exact token produced for a newly constructed string scalar holding `s`
(`toml_edit::Value::String(Formatted::new(s))`, modelled from the spec). -/
def quoteTok (s : List Char) : List Char := '"' :: (escape s ++ ['"'])

/-- Undo a single-character escape sequence of a basic TOML string. -/
def unescChar (c : Char) : Char :=
  if c = 'n' then '\n' else if c = 't' then '\t' else if c = 'r' then '\r' else c

/-- Scan the remainder of a basic TOML string after the opening quote.
On success returns `(value, tokenTail, rest)` where `tokenTail` is the exact consumed
source text (including the closing quote) and `rest` is everything after it. -/
def scanStrAux : List Char → Option (List Char × List Char × List Char)
  | [] => none
  | c :: rest =>
    if c = '"' then some ([], ['"'], rest)
    else if c = '\\' then
      match rest with
      | [] => none
      | d :: rest2 =>
        match scanStrAux rest2 with
        | some (v, tk, r) => some (unescChar d :: v, '\\' :: d :: tk, r)
        | none => none
    else
      match scanStrAux rest with
      | some (v, tk, r) => some (c :: v, c :: tk, r)
      | none => none

/-- Split a character list at every occurrence of `sep` (the separators are dropped;
`n` separators yield `n + 1` chunks). -/
def splitOnChar (sep : Char) : List Char → List (List Char)
  | [] => [[]]
  | c :: rest =>
    if c = sep then [] :: splitOnChar sep rest
    else
      match splitOnChar sep rest with
      | [] => [[c]]
      | l :: ls => (c :: l) :: ls

/-- Split raw manifest text into its physical lines. -/
def splitLines (cs : List Char) : List (List Char) := splitOnChar '\n' cs

/-- Rejoin physical lines with `'\n'`, the inverse of `splitLines`. -/
def joinLines : List (List Char) → List Char
  | [] => []
  | l :: ls =>
    match ls with
    | [] => l
    | _ => l ++ '\n' :: joinLines ls

/-- Parse a dotted header path such as `workspace.package` into its components;
fails when a component is empty. -/
def parsePath (cs : List Char) : Option (List String) :=
  let comps := splitOnChar '.' cs
  if comps.all (fun c => !c.isEmpty) then some (comps.map fun c => String.mk c) else none

/-- A scalar value together with its exact source token. -/
inductive Val where
  /-- A string scalar: `s` is its character content, `tok` its exact source token
  (quotes and escapes included). -/
  | vStr (s : List Char) (tok : List Char)
  /-- Any non-string scalar; only its raw token is kept. -/
  | vOther (tok : List Char)

/-- The exact source token of a scalar value. -/
def Val.tok : Val → List Char
  | .vStr _ tk => tk
  | .vOther tk => tk

/-- One physical line of a manifest, in the format-preserving representation
(modelled from the spec: the parser keeps every byte of the input). -/
inductive Line where
  /-- Any line that is neither a table header nor a key/value pair
  (blank lines, comments, malformed lines); kept verbatim. -/
  | other (raw : List Char)
  /-- A table header `[a.b]`; `raw` is the verbatim line, `path` the parsed dotted path. -/
  | header (raw : List Char) (path : List String)
  /-- A key/value line: `pre` is the verbatim text up to the value token
  (leading whitespace, key, whitespace, `=`, whitespace), `post` the verbatim text
  after the value token. -/
  | kv (pre : List Char) (key : String) (v : Val) (post : List Char)

/-- Try to read a line as a `key = value` pair; falls back to `Line.other`. -/
def tryKv (cs : List Char) : Line :=
  let w1 := cs.takeWhile isWsChar
  let r1 := cs.dropWhile isWsChar
  let kc := r1.takeWhile isKeyChar
  let r2 := r1.dropWhile isKeyChar
  if kc.isEmpty then .other cs else
  let w2 := r2.takeWhile isWsChar
  let r3 := r2.dropWhile isWsChar
  match r3 with
  | '=' :: r4 =>
    let w3 := r4.takeWhile isWsChar
    let r5 := r4.dropWhile isWsChar
    match r5 with
    | '"' :: r6 =>
      match scanStrAux r6 with
      | some (v, tk, rest) =>
        .kv (w1 ++ kc ++ w2 ++ '=' :: w3) (String.mk kc) (.vStr v ('"' :: tk)) rest
      | none => .other cs
    | _ => .kv (w1 ++ kc ++ w2 ++ '=' :: w3) (String.mk kc) (.vOther r5) []
  | _ => .other cs

/-- Try to read a line as a table header `[a.b]`; falls back to `Line.other`. -/
def tryHeader (cs : List Char) : Line :=
  match cs.dropWhile isWsChar with
  | '[' :: r2 =>
    let inner := r2.takeWhile (fun c => isKeyChar c || c = '.')
    let r3 := r2.dropWhile (fun c => isKeyChar c || c = '.')
    match r3 with
    | ']' :: _ =>
      match parsePath inner with
      | some p => .header cs p
      | none => .other cs
    | _ => .other cs
  | _ => .other cs

/-- Classify one physical line.  Modelled from the spec: the external parser turns the
text into a format-preserving tree; unrecognised content is kept verbatim. -/
def parseLine (cs : List Char) : Line :=
  match cs.dropWhile isWsChar with
  | [] => tryKv cs
  | c :: _ => if c = '[' then tryHeader cs else tryKv cs

/-- Reproduce the exact source text of a line (inverse of `parseLine`). -/
def renderLine : Line → List Char
  | .other raw => raw
  | .header raw _ => raw
  | .kv pre _ v post => pre ++ v.tok ++ post

/-- A node of the parsed document tree: a string scalar (with its source token),
any other scalar, or a table-like node. -/
inductive Item where
  /-- A string scalar with content `s` and exact source token `tok`. -/
  | str (s : List Char) (tok : List Char)
  /-- A non-string, non-table scalar. -/
  | scalar (tok : List Char)
  /-- A table-like node (ordered, unique keys). -/
  | table (entries : List (String × Item))

/-- A table-like node: an ordered association list with unique keys. -/
abbrev Tbl := List (String × Item)

/-- `toml_edit::TableLike::get`: first entry with the given key. -/
def tblGet : Tbl → String → Option Item
  | [], _ => none
  | (k', i) :: rest, k => if k' = k then some i else tblGet rest k

/-- `toml_edit::TableLike::insert`: replace in place when the key exists,
append at the end otherwise. -/
def tblSet : Tbl → String → Item → Tbl
  | [], k, i => [(k, i)]
  | (k', j) :: rest, k, i => if k' = k then (k, i) :: rest else (k', j) :: tblSet rest k i

/-- `toml_edit::Item::as_str`: the content of a string scalar, `none` otherwise. -/
def Item.as_str : Item → Option (List Char)
  | .str s _ => some s
  | _ => none

/-- `toml_edit::Item::as_table_like` (and `as_table_like_mut`): the entries of a
table-like node, `none` otherwise. -/
def Item.as_table_like : Item → Option Tbl
  | .table es => some es
  | _ => none

/-- Descend through nested table-like nodes along a path of keys. -/
def descend : Tbl → List String → Option Tbl
  | t, [] => some t
  | t, p :: ps =>
    match tblGet t p with
    | some (.table s) => descend s ps
    | _ => none

/-- The entry with key `k` of the table reached by descending along `p`. -/
def getEntry (t : Tbl) (p : List String) (k : String) : Option Item :=
  (descend t p).bind (fun s => tblGet s k)

/-- Replace the entry with key `k` of the table reached by descending along `p`
(the identity when the path does not lead through tables). -/
def setEntry (t : Tbl) (p : List String) (k : String) (i : Item) : Tbl :=
  match p with
  | [] => tblSet t k i
  | a :: ps =>
    match tblGet t a with
    | some (.table s) => tblSet t a (.table (setEntry s ps k i))
    | _ => t

/-- Insert a fresh entry at the end of the table reached along `p`, creating missing
intermediate tables; fails on a duplicate key or when the path runs through a
non-table node (the modelled parser rejects such documents, as real TOML does). -/
def insertAtPath (t : Tbl) (p : List String) (k : String) (i : Item) : Option Tbl :=
  match p with
  | [] =>
    match tblGet t k with
    | some _ => none
    | none => some (t ++ [(k, i)])
  | a :: ps =>
    match tblGet t a with
    | some (.table s) =>
      match insertAtPath s ps k i with
      | some s2 => some (tblSet t a (.table s2))
      | none => none
    | some _ => none
    | none =>
      match insertAtPath [] ps k i with
      | some s2 => some (t ++ [(a, .table s2)])
      | none => none

/-- Create the (possibly nested) tables named by a header path, descending through
tables that already exist; fails when the path runs through a non-table node. -/
def ensurePath (t : Tbl) (p : List String) : Option Tbl :=
  match p with
  | [] => some t
  | a :: ps =>
    match tblGet t a with
    | some (.table s) =>
      match ensurePath s ps with
      | some s2 => some (tblSet t a (.table s2))
      | none => none
    | some _ => none
    | none =>
      match ensurePath [] ps with
      | some s2 => some (t ++ [(a, .table s2)])
      | none => none

/-- The tree node corresponding to a scalar line value. -/
def itemOfVal : Val → Item
  | .vStr s tk => .str s tk
  | .vOther tk => .scalar tk

/-- Build the document tree from the classified lines, tracking the current header
path; fails on duplicate keys or table/value conflicts.  Modelled from the spec:
the external parser produces an editable tree of table-like nodes. -/
def buildTree : List Line → Tbl → List String → Option Tbl
  | [], t, _ => some t
  | l :: ls, t, p =>
    match l with
    | .other _ => buildTree ls t p
    | .header _ path =>
      match ensurePath t path with
      | some t2 => buildTree ls t2 path
      | none => none
    | .kv _ k v _ =>
      match insertAtPath t p k (itemOfVal v) with
      | some t2 => buildTree ls t2 p
      | none => none

/-- The classified physical lines of a manifest. -/
def docLines (contents : String) : List Line := (splitLines contents.data).map parseLine

/-- `crate::parsers::toml::parse`, modelled from the spec: parse raw manifest text
into the editable, format-preserving tree. -/
def parseDocTree (contents : String) : Option Tbl := buildTree (docLines contents) [] []

/-- Render the classified lines against a (possibly mutated) document tree: a string
scalar takes its token from the tree entry at its address, everything else is
reproduced verbatim.  Together with `joinLines` this is
`crate::parsers::toml::serialize`, modelled from the spec: untouched regions are
reproduced exactly and a replaced value differs only in its token span. -/
def renderWith (t : Tbl) : List Line → List String → List (List Char)
  | [], _ => []
  | l :: ls, cur =>
    match l with
    | .other raw => raw :: renderWith t ls cur
    | .header raw path => raw :: renderWith t ls path
    | .kv pre key v post =>
      let tok :=
        match getEntry t cur key with
        | some (.str _ tk) => tk
        | _ => v.tok
      (pre ++ tok ++ post) :: renderWith t ls cur

/-- Replace the value of every key/value line addressed by `(p, k)` with the freshly
quoted string `V` (a successful build has at most one such line). -/
def editLines (p : List String) (k : String) (V : List Char) :
    List Line → List String → List Line
  | [], _ => []
  | l :: ls, cur =>
    match l with
    | .header raw path => l :: editLines p k V ls path
    | .kv pre key v post =>
      (if cur = p ∧ key = k then Line.kv pre key (.vStr V (quoteTok V)) post else l)
        :: editLines p k V ls cur
    | .other raw => l :: editLines p k V ls cur

/-- `CargoTomlError` from `src/cli/src/package_managers/cargo.rs`.  The `ParseToml`
variant wraps the external parser's error, abstracted here to its rendered message. -/
inductive CargoTomlError where
  | InvalidPackageFieldDataType (workspace : Bool)
  | InvalidPackageVersionFieldDataType (workspace : Bool)
  | InvalidWorkspaceFieldDataType
  | MissingPackageField (workspace : Bool)
  | MissingPackageVersionField (workspace : Bool)
  | ParseToml (msg : String)
deriving DecidableEq

/-- The `Display` implementation of `CargoTomlError`, embedded from the source;
`ParseToml` delegates to the wrapped parse error's own message. -/
def CargoTomlError.display : CargoTomlError → String
  | .ParseToml msg => msg
  | .InvalidPackageVersionFieldDataType workspace =>
    (if workspace then "\"workspace.package.version\"" else "\"package.version\"")
      ++ " field is not a string"
  | .InvalidPackageFieldDataType workspace =>
    (if workspace then "\"workspace.package\"" else "\"package\"")
      ++ " field is not a table"
  | .MissingPackageVersionField workspace =>
    (if workspace then "\"workspace.package.version\"" else "\"package.version\"")
      ++ " field not found"
  | .MissingPackageField workspace =>
    (if workspace then "\"workspace.package\"" else "\"package\"")
      ++ " field not found"
  | .InvalidWorkspaceFieldDataType => "\"workspace\" is not a table"

/-- `set_package_version` from `cargo.rs` (lines 62–88): the version setter on a
table-like node.  Rust mutates the table through `&mut`; here the (possibly
unchanged) table is returned alongside the `modified` flag, and an error carries no
table at all — on failure the caller's tree is untouched. -/
def set_package_version (package_table : Tbl) (version : String) (workspace : Bool) :
    Except CargoTomlError (Bool × Tbl) :=
  match tblGet package_table "version" with
  | none => .error (.MissingPackageVersionField workspace)
  | some version_key =>
    match version_key.as_str with
    | none => .error (.InvalidPackageVersionFieldDataType workspace)
    | some version_key_str =>
      if version_key_str = version.data then .ok (false, package_table)
      else
        .ok (true,
          tblSet package_table "version" (.str version.data (quoteTok version.data)))

/-- The tree-level body of `set_cargo_toml_version` (`cargo.rs` lines 100–122): the
workspace-first locator cascade followed by the setter, with the `&mut` writeback
made explicit. -/
def set_version_doc (document : Tbl) (version : String) :
    Except CargoTomlError (Bool × Tbl) :=
  match tblGet document "workspace" with
  | some workspace =>
    match workspace.as_table_like with
    | none => .error .InvalidWorkspaceFieldDataType
    | some workspace_table =>
      match tblGet workspace_table "package" with
      | none => .error (.MissingPackageField true)
      | some package =>
        match package.as_table_like with
        | none => .error (.InvalidPackageFieldDataType true)
        | some package_table =>
          match set_package_version package_table version true with
          | .error e => .error e
          | .ok (modified, package_table2) =>
            .ok (modified,
              tblSet document "workspace"
                (.table (tblSet workspace_table "package" (.table package_table2))))
  | none =>
    match tblGet document "package" with
    | some package_raw =>
      match package_raw.as_table_like with
      | none => .error (.InvalidPackageFieldDataType false)
      | some package_table =>
        match set_package_version package_table version false with
        | .error e => .error e
        | .ok (modified, package_table2) =>
          .ok (modified, tblSet document "package" (.table package_table2))
    | none => .error (.MissingPackageField false)

/-- `set_cargo_toml_version` from `cargo.rs` (lines 91–131): parse, locate, set,
and serialize — returning the original text untouched when nothing was modified. -/
def set_cargo_toml_version (contents : String) (version : String) :
    Except CargoTomlError (Bool × String) :=
  match buildTree (docLines contents) [] [] with
  | none => .error (.ParseToml "TOML parse error")
  | some document =>
    match set_version_doc document version with
    | .error e => .error e
    | .ok (modified, document2) =>
      if modified then
        .ok (true, String.mk (joinLines (renderWith document2 (docLines contents) [])))
      else .ok (false, contents)

/-- Modelled from the spec: the error type of the Crystal ecosystem
(`shard.yml`, `src/cli/src/package_managers/crystal.rs` is not among the provided
sources); abstracted to its rendered message. -/
structure ShardYmlError where
  rendered : String
deriving DecidableEq

/-- Modelled from the spec: the error type of the Gleam ecosystem (source file not
provided); abstracted to its rendered message. -/
structure GleamTomlError where
  rendered : String
deriving DecidableEq

/-- Modelled from the spec: the error type of the Lerna ecosystem (source file not
provided); abstracted to its rendered message. -/
structure LernaJsonError where
  rendered : String
deriving DecidableEq

/-- Modelled from the spec: the error type of the npm ecosystem (source file not
provided); abstracted to its rendered message. -/
structure PackageJsonError where
  rendered : String
deriving DecidableEq

/-- Modelled from the spec: the error type of the Dart/pub ecosystem (source file not
provided); abstracted to its rendered message. -/
structure PubspecYamlError where
  rendered : String
deriving DecidableEq

/-- Modelled from the spec: the error type of the Python ecosystem (source file not
provided); abstracted to its rendered message. -/
structure PyprojectTomlError where
  rendered : String
deriving DecidableEq

/-- `PackageManagerError` from `src/cli/src/package_managers/error.rs`: one variant
per ecosystem, each losslessly wrapping that ecosystem's error type. -/
inductive PackageManagerError where
  | CargoToml (error : CargoTomlError)
  | LernaJson (error : LernaJsonError)
  | GleamToml (error : GleamTomlError)
  | PackageJson (error : PackageJsonError)
  | PubspecYaml (error : PubspecYamlError)
  | PyprojectToml (error : PyprojectTomlError)
  | ShardYml (error : ShardYmlError)
deriving DecidableEq

/-- The `Display` implementation of `PackageManagerError` (`error.rs` lines 19–32):
every variant delegates to the wrapped error's `Display`. -/
def PackageManagerError.display : PackageManagerError → String
  | .CargoToml error => error.display
  | .LernaJson error => error.rendered
  | .GleamToml error => error.rendered
  | .PackageJson error => error.rendered
  | .PubspecYaml error => error.rendered
  | .PyprojectToml error => error.rendered
  | .ShardYml error => error.rendered

/-- `impl From<CargoTomlError> for PackageManagerError` (`error.rs` lines 34–39). -/
def packageManagerErrorFromCargo (value : CargoTomlError) : PackageManagerError :=
  .CargoToml value

/-- Recover the wrapped `CargoTomlError` by matching the `CargoToml` variant. -/
def PackageManagerError.asCargoToml : PackageManagerError → Option CargoTomlError
  | .CargoToml error => some error
  | _ => none

/-- An external process invocation: program name plus argument list
(`std::process::Command`, restricted to what the source constructs). -/
structure Command where
  program : String
  args : List String
deriving DecidableEq

/-- `std::process::Command::new`. -/
def Command.new (program : String) : Command := ⟨program, []⟩

/-- `std::process::Command::arg`: append one argument. -/
def Command.arg (c : Command) (a : String) : Command := ⟨c.program, c.args ++ [a]⟩

/-- `cargo_update_lock_file_command` from `cargo.rs` (lines 133–138). -/
def cargo_update_lock_file_command : Command :=
  (Command.new "cargo").arg "check"

/-- Decidable substring test on character lists (used to state what an error
message does or does not contain). -/
def listContains (hay needle : List Char) : Bool :=
  hay.tails.any (fun t => needle.isPrefixOf t)

end Crosspmv


namespace Crosspmv

theorem takeWhile_app_all {α} (p : α → Bool) {xs : List α} (ys : List α)
    (h : ∀ a ∈ xs, p a = true) : (xs ++ ys).takeWhile p = xs ++ ys.takeWhile p := by
  induction xs with
  | nil => rfl
  | cons x xs ih =>
    simp only [List.cons_append, List.takeWhile_cons_of_pos (h x (by simp))]
    rw [ih (fun a ha => h a (by simp [ha]))]

theorem dropWhile_app_all {α} (p : α → Bool) {xs : List α} (ys : List α)
    (h : ∀ a ∈ xs, p a = true) : (xs ++ ys).dropWhile p = ys.dropWhile p := by
  induction xs with
  | nil => rfl
  | cons x xs ih =>
    simp only [List.cons_append, List.dropWhile_cons_of_pos (h x (by simp))]
    exact ih (fun a ha => h a (by simp [ha]))

theorem splitOnChar_ne_nil (sep : Char) (cs : List Char) : splitOnChar sep cs ≠ [] := by
  induction cs with
  | nil => simp [splitOnChar]
  | cons c rest ih =>
    by_cases h : c = sep
    · simp [splitOnChar, h]
    · simp only [splitOnChar, if_neg h]
      cases hrec : splitOnChar sep rest with
      | nil => simp
      | cons l ls => simp

theorem joinLines_cons_ne (l : List Char) {ls : List (List Char)} (h : ls ≠ []) :
    joinLines (l :: ls) = l ++ '\n' :: joinLines ls := by
  cases ls with
  | nil => exact absurd rfl h
  | cons a as => rfl

theorem joinLines_splitOnChar (cs : List Char) : joinLines (splitOnChar '\n' cs) = cs := by
  induction cs with
  | nil => rfl
  | cons c rest ih =>
    by_cases h : c = '\n'
    · simp only [splitOnChar, if_pos h]
      rw [joinLines_cons_ne _ (splitOnChar_ne_nil _ _)]
      simp [ih, h]
    · simp only [splitOnChar, if_neg h]
      cases hrec : splitOnChar '\n' rest with
      | nil => exact absurd hrec (splitOnChar_ne_nil _ _)
      | cons l ls =>
        rw [hrec] at ih
        cases ls with
        | nil =>
          simp only [joinLines] at ih ⊢
          rw [ih]
        | cons b bs =>
          rw [joinLines_cons_ne _ (by simp)] at ih
          rw [joinLines_cons_ne _ (by simp), List.cons_append, ih]

theorem splitOnChar_not_mem (sep : Char) (cs : List Char) :
    ∀ l ∈ splitOnChar sep cs, sep ∉ l := by
  induction cs with
  | nil =>
    intro l hl
    rcases List.mem_cons.mp hl with h | h
    · simp [h]
    · simp at h
  | cons c rest ih =>
    intro l hl
    by_cases h : c = sep
    · simp only [splitOnChar, if_pos h] at hl
      rcases List.mem_cons.mp hl with h2 | h2
      · simp [h2]
      · exact ih l h2
    · cases hrec : splitOnChar sep rest with
      | nil => exact absurd hrec (splitOnChar_ne_nil _ _)
      | cons a as =>
        simp only [splitOnChar, if_neg h, hrec] at hl
        rcases List.mem_cons.mp hl with h2 | h2
        · subst h2
          intro hmem
          rcases List.mem_cons.mp hmem with h3 | h3
          · exact h h3.symm
          · exact ih a (by rw [hrec]; exact List.mem_cons_self _ _) h3
        · exact ih l (by rw [hrec]; exact List.mem_cons_of_mem _ h2)

theorem splitOnChar_single {sep : Char} {l : List Char} (h : sep ∉ l) :
    splitOnChar sep l = [l] := by
  induction l with
  | nil => rfl
  | cons c rest ih =>
    have hc : ¬ c = sep := fun he => h (by simp [he])
    simp only [splitOnChar, if_neg hc, ih (fun hm => h (List.mem_cons_of_mem _ hm))]

theorem splitOnChar_append_sep {sep : Char} {l t : List Char} (h : sep ∉ l) :
    splitOnChar sep (l ++ sep :: t) = l :: splitOnChar sep t := by
  induction l with
  | nil => simp [splitOnChar]
  | cons c rest ih =>
    have hc : ¬ c = sep := fun he => h (by simp [he])
    rw [List.cons_append]
    simp only [splitOnChar, if_neg hc, ih (fun hm => h (List.mem_cons_of_mem _ hm))]

theorem splitOnChar_joinLines {ls : List (List Char)} (hne : ls ≠ [])
    (h : ∀ l ∈ ls, '\n' ∉ l) : splitOnChar '\n' (joinLines ls) = ls := by
  induction ls with
  | nil => exact absurd rfl hne
  | cons l ls ih =>
    cases ls with
    | nil => simpa [joinLines] using splitOnChar_single (h l (by simp))
    | cons b bs =>
      rw [joinLines_cons_ne _ (by simp),
        splitOnChar_append_sep (h l (by simp)),
        ih (by simp) (fun x hx => h x (by simp [hx]))]

end Crosspmv


namespace Crosspmv

theorem scan_nil : scanStrAux [] = none := rfl

theorem scan_quote (rest : List Char) : scanStrAux ('"' :: rest) = some ([], ['"'], rest) := by
  rw [scanStrAux.eq_def]
  dsimp only
  rw [if_pos rfl]

theorem scan_bs_nil : scanStrAux ['\\'] = none := by
  rw [scanStrAux.eq_def]
  dsimp only
  rw [if_neg (by decide), if_pos rfl]

theorem scan_bs (d : Char) (rest2 : List Char) :
    scanStrAux ('\\' :: d :: rest2) =
      match scanStrAux rest2 with
      | some (v, tk, r) => some (unescChar d :: v, '\\' :: d :: tk, r)
      | none => none := by
  rw [scanStrAux.eq_def]
  dsimp only
  rw [if_neg (by decide), if_pos rfl]

theorem scan_plain {c : Char} (rest : List Char) (h1 : ¬ c = '"') (h2 : ¬ c = '\\') :
    scanStrAux (c :: rest) =
      match scanStrAux rest with
      | some (v, tk, r) => some (c :: v, c :: tk, r)
      | none => none := by
  rw [scanStrAux.eq_def]
  dsimp only
  simp only [if_neg h1, if_neg h2]

end Crosspmv

namespace Crosspmv

theorem scanStrAux_partition (cs : List Char) :
    ∀ {v tk r : List Char}, scanStrAux cs = some (v, tk, r) → tk ++ r = cs := by
  induction cs using scanStrAux.induct with
  | case1 =>
    intro v tk r h
    rw [scan_nil] at h
    exact absurd h (by simp)
  | case2 rest2 =>
    intro v tk r h
    rw [scan_quote] at h
    simp only [Option.some.injEq, Prod.mk.injEq] at h
    obtain ⟨hv, htk, hr⟩ := h
    subst htk hr
    rfl
  | case3 hne =>
    intro v tk r h
    rw [scan_bs_nil] at h
    exact absurd h (by simp)
  | case4 d rest2 v0 tk0 r0 hscan hne ih =>
    intro v tk r h
    rw [scan_bs, hscan] at h
    simp only [Option.some.injEq, Prod.mk.injEq] at h
    obtain ⟨hv, htk, hr⟩ := h
    subst htk hr
    simpa using ih hscan
  | case5 d rest2 hscan hne ih =>
    intro v tk r h
    rw [scan_bs, hscan] at h
    exact absurd h (by simp)
  | case6 d rest2 hne1 hne2 v0 tk0 r0 hscan ih =>
    intro v tk r h
    rw [scan_plain _ hne1 hne2, hscan] at h
    simp only [Option.some.injEq, Prod.mk.injEq] at h
    obtain ⟨hv, htk, hr⟩ := h
    subst htk hr
    simpa using ih hscan
  | case7 d rest2 hne1 hne2 hscan ih =>
    intro v tk r h
    rw [scan_plain _ hne1 hne2, hscan] at h
    exact absurd h (by simp)

theorem escape_cons (c : Char) (s : List Char) :
    escape (c :: s) = escChar c ++ escape s := rfl

theorem scanStrAux_escape (s : List Char) (post : List Char) :
    scanStrAux (escape s ++ '"' :: post) = some (s, escape s ++ ['"'], post) := by
  induction s with
  | nil => simpa [escape] using scan_quote post
  | cons c s ih =>
    rw [escape_cons]
    by_cases h1 : c = '"' ∨ c = '\\'
    · have hesc : escChar c = ['\\', c] := by
        simp only [escChar]
        rw [if_pos (by rcases h1 with h | h <;> simp [h])]
      have hunesc : unescChar c = c := by
        rcases h1 with h | h <;> subst h <;> rfl
      rw [hesc]
      simp only [List.cons_append, List.nil_append, List.append_assoc]
      rw [scan_bs, ih]
      simp [hunesc]
    · push_neg at h1
      obtain ⟨hq, hb⟩ := h1
      by_cases h2 : c = '\n'
      · subst h2
        rw [show escChar '\n' = ['\\', 'n'] from by decide]
        simp only [List.cons_append, List.nil_append]
        rw [scan_bs, ih]
        rw [show unescChar 'n' = '\n' from rfl]
      · by_cases h3 : c = '\t'
        · subst h3
          rw [show escChar '\t' = ['\\', 't'] from by decide]
          simp only [List.cons_append, List.nil_append]
          rw [scan_bs, ih]
          rw [show unescChar 't' = '\t' from rfl]
        · by_cases h4 : c = '\r'
          · subst h4
            rw [show escChar '\r' = ['\\', 'r'] from by decide]
            simp only [List.cons_append, List.nil_append]
            rw [scan_bs, ih]
            rw [show unescChar 'r' = '\r' from rfl]
          · have hesc : escChar c = [c] := by
              simp only [escChar]
              rw [if_neg (by simp [hq, hb]), if_neg h2, if_neg h3, if_neg h4]
            rw [hesc]
            simp only [List.cons_append, List.nil_append]
            rw [scan_plain _ hq hb, ih]

theorem escape_no_newline (s : List Char) : '\n' ∉ escape s := by
  induction s with
  | nil => simp [escape]
  | cons c s ih =>
    rw [escape_cons]
    intro hmem
    rcases List.mem_append.mp hmem with h | h
    · revert h
      simp only [escChar]
      by_cases h1 : c = '"' || c = '\\'
      · rw [if_pos h1]
        intro h
        rcases List.mem_cons.mp h with h2 | h2
        · exact absurd h2.symm (by decide)
        · rcases List.mem_cons.mp h2 with h3 | h3
          · rcases Bool.or_eq_true_iff.mp h1 with h4 | h4 <;>
              simp only [decide_eq_true_eq] at h4 <;> subst h4 <;> exact absurd h3 (by decide)
          · simp at h3
      · rw [if_neg h1]
        by_cases h2 : c = '\n'
        · rw [if_pos h2]; decide
        · rw [if_neg h2]
          by_cases h3 : c = '\t'
          · rw [if_pos h3]; decide
          · rw [if_neg h3]
            by_cases h4 : c = '\r'
            · rw [if_pos h4]; decide
            · rw [if_neg h4]
              intro h
              rcases List.mem_cons.mp h with h5 | h5
              · exact h2 h5.symm
              · simp at h5
    · exact ih h

theorem quoteTok_no_newline (s : List Char) : '\n' ∉ quoteTok s := by
  intro h
  rcases List.mem_cons.mp h with h1 | h1
  · exact absurd h1 (by decide)
  · rcases List.mem_append.mp h1 with h2 | h2
    · exact escape_no_newline s h2
    · rcases List.mem_cons.mp h2 with h3 | h3
      · exact absurd h3 (by decide)
      · simp at h3

end Crosspmv

namespace Crosspmv

theorem ws_not_key {c : Char} (h : isWsChar c = true) : isKeyChar c = false := by
  rcases Bool.or_eq_true_iff.mp h with h1 | h1 <;>
    simp only [decide_eq_true_eq] at h1 <;> subst h1 <;> decide

theorem key_not_ws {c : Char} (h : isKeyChar c = true) : isWsChar c = false := by
  cases hws : isWsChar c with
  | false => rfl
  | true => rw [ws_not_key hws] at h; exact absurd h (by simp)

theorem key_ne_lbracket {c : Char} (h : isKeyChar c = true) : ¬ c = '[' := by
  intro he
  subst he
  exact absurd h (by decide)

theorem renderLine_tryHeader (cs : List Char) : renderLine (tryHeader cs) = cs := by
  simp only [tryHeader]
  split
  · split
    · split <;> rfl
    · rfl
  · rfl

theorem renderLine_tryKv (cs : List Char) : renderLine (tryKv cs) = cs := by
  simp only [tryKv]
  split
  · rfl
  · split
    · split
      · split
        · rename_i h0 r3 r4 heq1 r5 r6 heq2 x v tk rest hscan
          have hp := scanStrAux_partition _ hscan
          simp only [renderLine, Val.tok, List.append_assoc, List.cons_append]
          rw [hp, ← heq2, List.takeWhile_append_dropWhile, ← heq1,
            List.takeWhile_append_dropWhile, List.takeWhile_append_dropWhile,
            List.takeWhile_append_dropWhile]
        · rfl
      · rename_i h0 r3 r4 heq1 r5 x
        simp only [renderLine, Val.tok, List.append_assoc, List.cons_append, List.append_nil]
        rw [List.takeWhile_append_dropWhile, ← heq1, List.takeWhile_append_dropWhile,
          List.takeWhile_append_dropWhile, List.takeWhile_append_dropWhile]
    · rfl

theorem renderLine_parseLine (cs : List Char) : renderLine (parseLine cs) = cs := by
  rw [parseLine.eq_def]
  split
  · exact renderLine_tryKv cs
  · split
    · exact renderLine_tryHeader cs
    · exact renderLine_tryKv cs

theorem tryHeader_ne_kv (cs pre : List Char) (key : String) (v : Val) (post : List Char) :
    tryHeader cs ≠ .kv pre key v post := by
  simp only [tryHeader]
  split
  · split
    · split <;> simp
    · simp
  · simp

theorem tryKv_kv_inv {cs pre : List Char} {key : String} {v : Val} {post : List Char}
    (h : tryKv cs = .kv pre key v post) :
    ∃ w1 kc w2 w3,
      pre = w1 ++ kc ++ w2 ++ '=' :: w3 ∧
      (∀ a ∈ w1, isWsChar a = true) ∧
      (∀ a ∈ kc, isKeyChar a = true) ∧
      kc ≠ [] ∧
      (∀ a ∈ w2, isWsChar a = true) ∧
      (∀ a ∈ w3, isWsChar a = true) ∧
      key = String.mk kc := by
  simp only [tryKv] at h
  split at h
  · exact absurd h (by simp)
  · rename_i hkcne
    split at h
    · split at h
      · split at h
        · rename_i r3 r4 heq1 r5 r6 heq2 x v0 tk0 rest0 hscan
          rcases h with ⟨hpre, hkey, hv, hpost⟩
          refine ⟨_, _, _, _, rfl, ?_, ?_, ?_, ?_, ?_, rfl⟩
          · exact fun a ha => List.mem_takeWhile_imp ha
          · exact fun a ha => List.mem_takeWhile_imp ha
          · intro hnil
            rw [hnil] at hkcne
            exact hkcne rfl
          · exact fun a ha => List.mem_takeWhile_imp ha
          · exact fun a ha => List.mem_takeWhile_imp ha
        · exact absurd h (by simp)
      · rename_i r3 r4 heq1 r5 x
        rcases h with ⟨hpre, hkey, hv, hpost⟩
        refine ⟨_, _, _, _, rfl, ?_, ?_, ?_, ?_, ?_, rfl⟩
        · exact fun a ha => List.mem_takeWhile_imp ha
        · exact fun a ha => List.mem_takeWhile_imp ha
        · intro hnil
          rw [hnil] at hkcne
          exact hkcne rfl
        · exact fun a ha => List.mem_takeWhile_imp ha
        · exact fun a ha => List.mem_takeWhile_imp ha
    · exact absurd h (by simp)

theorem parseLine_kv_inv {cs pre : List Char} {key : String} {v : Val} {post : List Char}
    (h : parseLine cs = .kv pre key v post) :
    ∃ w1 kc w2 w3,
      pre = w1 ++ kc ++ w2 ++ '=' :: w3 ∧
      (∀ a ∈ w1, isWsChar a = true) ∧
      (∀ a ∈ kc, isKeyChar a = true) ∧
      kc ≠ [] ∧
      (∀ a ∈ w2, isWsChar a = true) ∧
      (∀ a ∈ w3, isWsChar a = true) ∧
      key = String.mk kc := by
  rw [parseLine.eq_def] at h
  split at h
  · exact tryKv_kv_inv h
  · split at h
    · exact absurd h (tryHeader_ne_kv _ _ _ _ _)
    · exact tryKv_kv_inv h

end Crosspmv

namespace Crosspmv

theorem takeWhile_stop {α} (p : α → Bool) {w : List α} {y : α} (ys : List α)
    (hw : ∀ a ∈ w, p a = true) (hy : p y = false) :
    (w ++ y :: ys).takeWhile p = w := by
  rw [takeWhile_app_all p _ hw, List.takeWhile_cons_of_neg (by simp [hy]), List.append_nil]

theorem dropWhile_stop {α} (p : α → Bool) {w : List α} {y : α} (ys : List α)
    (hw : ∀ a ∈ w, p a = true) (hy : p y = false) :
    (w ++ y :: ys).dropWhile p = y :: ys := by
  rw [dropWhile_app_all p _ hw, List.dropWhile_cons_of_neg (by simp [hy])]

theorem parseLine_reparse {w1 : List Char} {k0 : Char} {kc' w2 w3 post : List Char}
    (V : List Char)
    (hw1 : ∀ a ∈ w1, isWsChar a = true)
    (hkc : ∀ a ∈ k0 :: kc', isKeyChar a = true)
    (hw2 : ∀ a ∈ w2, isWsChar a = true)
    (hw3 : ∀ a ∈ w3, isWsChar a = true) :
    parseLine ((w1 ++ (k0 :: kc') ++ w2 ++ '=' :: w3) ++ quoteTok V ++ post) =
      .kv (w1 ++ (k0 :: kc') ++ w2 ++ '=' :: w3) (String.mk (k0 :: kc'))
        (.vStr V (quoteTok V)) post := by
  have hk0 : isKeyChar k0 = true := hkc k0 (by simp)
  -- right-nested view of the input
  have hassoc :
      (w1 ++ (k0 :: kc') ++ w2 ++ '=' :: w3) ++ quoteTok V ++ post =
        w1 ++ (k0 :: (kc' ++ (w2 ++ '=' :: (w3 ++ ('"' :: (escape V ++ '"' :: post)))))) := by
    simp [quoteTok, List.append_assoc]
  -- the whole tail after the leading whitespace
  have hdw1 :
      ((w1 ++ (k0 :: kc') ++ w2 ++ '=' :: w3) ++ quoteTok V ++ post).dropWhile isWsChar =
        k0 :: (kc' ++ (w2 ++ '=' :: (w3 ++ ('"' :: (escape V ++ '"' :: post))))) := by
    rw [hassoc]
    exact dropWhile_stop _ _ hw1 (key_not_ws hk0)
  have htw1 :
      ((w1 ++ (k0 :: kc') ++ w2 ++ '=' :: w3) ++ quoteTok V ++ post).takeWhile isWsChar = w1 := by
    rw [hassoc]
    exact takeWhile_stop _ _ hw1 (key_not_ws hk0)
  -- key segment
  have hkstop : ∀ r, (w2 ++ '=' :: r).takeWhile isKeyChar = [] ∧
      (w2 ++ '=' :: r).dropWhile isKeyChar = w2 ++ '=' :: r := by
    intro r
    cases w2 with
    | nil =>
      constructor
      · rw [List.nil_append]
        exact List.takeWhile_cons_of_neg (by decide)
      · rw [List.nil_append]
        exact List.dropWhile_cons_of_neg (by decide)
    | cons a w2' =>
      have ha : isWsChar a = true := hw2 a (by simp)
      constructor
      · rw [List.cons_append]
        exact List.takeWhile_cons_of_neg (by simp [ws_not_key ha])
      · rw [List.cons_append]
        exact List.dropWhile_cons_of_neg (by simp [ws_not_key ha])
  have htk :
      (k0 :: (kc' ++ (w2 ++ '=' :: (w3 ++ ('"' :: (escape V ++ '"' :: post)))))).takeWhile
          isKeyChar = k0 :: kc' := by
    have := takeWhile_app_all isKeyChar
      (w2 ++ '=' :: (w3 ++ ('"' :: (escape V ++ '"' :: post)))) hkc
    rw [List.cons_append] at this
    rw [this, (hkstop _).1, List.append_nil]
  have hdk :
      (k0 :: (kc' ++ (w2 ++ '=' :: (w3 ++ ('"' :: (escape V ++ '"' :: post)))))).dropWhile
          isKeyChar = w2 ++ '=' :: (w3 ++ ('"' :: (escape V ++ '"' :: post))) := by
    have := dropWhile_app_all isKeyChar
      (w2 ++ '=' :: (w3 ++ ('"' :: (escape V ++ '"' :: post)))) hkc
    rw [List.cons_append] at this
    rw [this, (hkstop _).2]
  -- whitespace before '='
  have htw2 : (w2 ++ '=' :: (w3 ++ ('"' :: (escape V ++ '"' :: post)))).takeWhile isWsChar
      = w2 := takeWhile_stop _ _ hw2 (by decide)
  have hdw2 : (w2 ++ '=' :: (w3 ++ ('"' :: (escape V ++ '"' :: post)))).dropWhile isWsChar
      = '=' :: (w3 ++ ('"' :: (escape V ++ '"' :: post))) :=
    dropWhile_stop _ _ hw2 (by decide)
  -- whitespace after '='
  have htw3 : (w3 ++ ('"' :: (escape V ++ '"' :: post))).takeWhile isWsChar = w3 :=
    takeWhile_stop _ _ hw3 (by decide)
  have hdw3 : (w3 ++ ('"' :: (escape V ++ '"' :: post))).dropWhile isWsChar =
      '"' :: (escape V ++ '"' :: post) := dropWhile_stop _ _ hw3 (by decide)
  rw [parseLine.eq_def, hdw1]
  dsimp only
  rw [if_neg (key_ne_lbracket hk0)]
  simp only [tryKv]
  rw [hdw1, htw1, htk, hdk, htw2, hdw2]
  rw [if_neg (by simp)]
  split
  · rename_i r4 heq4
    injection heq4 with h1 h2
    subst h2
    rw [htw3, hdw3]
    split
    · rename_i r6 heq6
      injection heq6 with h3 h4
      subst h4
      rw [scanStrAux_escape]
      dsimp only
      simp [quoteTok, List.append_assoc]
    · rename_i x
      exact (x _ rfl).elim
  · rename_i x
    exact (x _ rfl).elim

end Crosspmv

namespace Crosspmv

theorem tblGet_tblSet_self (t : Tbl) (k : String) (i : Item) :
    tblGet (tblSet t k i) k = some i := by
  induction t with
  | nil => simp [tblGet, tblSet]
  | cons e rest ih =>
    obtain ⟨k', j⟩ := e
    by_cases h : k' = k
    · simp [tblSet, tblGet, h]
    · simp only [tblSet, if_neg h, tblGet, ih]

theorem tblGet_tblSet_ne (t : Tbl) {k k' : String} (i : Item) (h : ¬ k' = k) :
    tblGet (tblSet t k' i) k = tblGet t k := by
  induction t with
  | nil => simp [tblGet, tblSet, h]
  | cons e rest ih =>
    obtain ⟨k0, j⟩ := e
    by_cases h0 : k0 = k'
    · subst h0
      simp only [tblSet, if_pos rfl, tblGet, if_neg h]
    · simp only [tblSet, if_neg h0, tblGet, ih]

theorem tblGet_append_none {t : Tbl} {k : String} (l : Tbl) (h : tblGet t k = none) :
    tblGet (t ++ l) k = tblGet l k := by
  induction t with
  | nil => simp
  | cons e rest ih =>
    obtain ⟨k0, j⟩ := e
    by_cases h0 : k0 = k
    · rw [tblGet, if_pos h0] at h
      exact absurd h (by simp)
    · rw [tblGet, if_neg h0] at h
      rw [List.cons_append, tblGet, if_neg h0]
      exact ih h

theorem tblGet_append_some {t : Tbl} {k : String} {j : Item} (l : Tbl)
    (h : tblGet t k = some j) : tblGet (t ++ l) k = some j := by
  induction t with
  | nil => simp [tblGet] at h
  | cons e rest ih =>
    obtain ⟨k0, j0⟩ := e
    by_cases h0 : k0 = k
    · rw [tblGet, if_pos h0] at h
      rw [List.cons_append, tblGet, if_pos h0]
      exact h
    · rw [tblGet, if_neg h0] at h
      rw [List.cons_append, tblGet, if_neg h0]
      exact ih h

theorem tblSet_append_mem {t : Tbl} {k : String} {j : Item} (l : Tbl) (i : Item)
    (h : tblGet t k = some j) : tblSet (t ++ l) k i = tblSet t k i ++ l := by
  induction t with
  | nil => simp [tblGet] at h
  | cons e rest ih =>
    obtain ⟨k0, j0⟩ := e
    by_cases h0 : k0 = k
    · rw [List.cons_append, tblSet, if_pos h0, tblSet, if_pos h0, List.cons_append]
    · rw [tblGet, if_neg h0] at h
      rw [List.cons_append, tblSet, if_neg h0, tblSet, if_neg h0, List.cons_append, ih h]

theorem tblSet_append_none {t : Tbl} {k : String} (l : Tbl) (i : Item)
    (h : tblGet t k = none) : tblSet (t ++ l) k i = t ++ tblSet l k i := by
  induction t with
  | nil => simp
  | cons e rest ih =>
    obtain ⟨k0, j0⟩ := e
    by_cases h0 : k0 = k
    · rw [tblGet, if_pos h0] at h
      exact absurd h (by simp)
    · rw [tblGet, if_neg h0] at h
      rw [List.cons_append, tblSet, if_neg h0, ih h, List.cons_append]

theorem tblSet_eq_append {t : Tbl} {k : String} (i : Item) (h : tblGet t k = none) :
    tblSet t k i = t ++ [(k, i)] := by
  have := tblSet_append_none ([] : Tbl) i h
  simpa [tblSet] using this

theorem tblSet_tblSet_same (t : Tbl) (k : String) (x y : Item) :
    tblSet (tblSet t k x) k y = tblSet t k y := by
  induction t with
  | nil => simp [tblSet]
  | cons e rest ih =>
    obtain ⟨k0, j0⟩ := e
    by_cases h0 : k0 = k
    · rw [tblSet, if_pos h0, tblSet, if_pos rfl, tblSet, if_pos h0]
    · rw [tblSet, if_neg h0, tblSet, if_neg h0, tblSet, if_neg h0, ih]

theorem tblSet_comm {t : Tbl} {k1 k2 : String} {j1 : Item} (x y : Item)
    (hne : ¬ k1 = k2) (h1 : tblGet t k1 = some j1) :
    tblSet (tblSet t k1 x) k2 y = tblSet (tblSet t k2 y) k1 x := by
  induction t with
  | nil => simp [tblGet] at h1
  | cons e rest ih =>
    obtain ⟨k0, j0⟩ := e
    by_cases h0 : k0 = k1
    · subst h0
      simp [tblSet, hne]
    · rw [tblGet, if_neg h0] at h1
      by_cases h2 : k0 = k2
      · subst h2
        simp [tblSet, h0]
      · simp [tblSet, h0, h2, ih h1]

end Crosspmv

namespace Crosspmv

theorem as_table_like_eq_some {j : Item} {s : Tbl} (h : j.as_table_like = some s) :
    j = .table s := by
  cases j with
  | str a b => simp [Item.as_table_like] at h
  | scalar a => simp [Item.as_table_like] at h
  | table es => simpa [Item.as_table_like] using h

theorem as_str_eq_some {j : Item} {s : List Char} (h : j.as_str = some s) :
    ∃ tok, j = .str s tok := by
  cases j with
  | str a b =>
    simp only [Item.as_str, Option.some.injEq] at h
    exact ⟨b, by rw [h]⟩
  | scalar a => simp [Item.as_str] at h
  | table es => simp [Item.as_str] at h

theorem getEntry_nil (t : Tbl) (k : String) : getEntry t [] k = tblGet t k := rfl

theorem getEntry_cons_table {t : Tbl} {a : String} {s : Tbl} (ps : List String) (k : String)
    (h : tblGet t a = some (.table s)) : getEntry t (a :: ps) k = getEntry s ps k := by
  simp only [getEntry, descend, h]

theorem getEntry_cons_none {t : Tbl} {a : String} (ps : List String) (k : String)
    (h : tblGet t a = none) : getEntry t (a :: ps) k = none := by
  simp only [getEntry, descend, h, Option.bind]

theorem getEntry_cons_nontable {t : Tbl} {a : String} {j : Item} (ps : List String)
    (k : String) (h : tblGet t a = some j) (hj : j.as_table_like = none) :
    getEntry t (a :: ps) k = none := by
  cases j with
  | str x y => simp only [getEntry, descend, h, Option.bind]
  | scalar x => simp only [getEntry, descend, h, Option.bind]
  | table es => simp [Item.as_table_like] at hj

theorem getEntry_setEntry_self {t : Tbl} {p : List String} {k : String} {i0 : Item}
    (i : Item) (h : getEntry t p k = some i0) :
    getEntry (setEntry t p k i) p k = some i := by
  induction p generalizing t with
  | nil =>
    rw [getEntry_nil]
    rw [setEntry]
    exact tblGet_tblSet_self t k i
  | cons a ps ih =>
    cases hg : tblGet t a with
    | none => rw [getEntry_cons_none _ _ hg] at h; exact absurd h (by simp)
    | some j =>
      cases j with
      | table s =>
        rw [getEntry_cons_table _ _ hg] at h
        rw [setEntry, hg]
        rw [getEntry_cons_table _ _ (tblGet_tblSet_self t a _)]
        exact ih h
      | str x y =>
        rw [getEntry_cons_nontable _ _ hg (by simp [Item.as_table_like])] at h
        exact absurd h (by simp)
      | scalar x =>
        rw [getEntry_cons_nontable _ _ hg (by simp [Item.as_table_like])] at h
        exact absurd h (by simp)

theorem getEntry_setEntry_ne {t : Tbl} {q : List String} {kq : String} {j0 : Item}
    {p : List String} {k : String} {j : Item} {i : Item}
    (h1 : getEntry t q kq = some j0) (hj0 : j0.as_table_like = none)
    (h2 : getEntry t p k = some j) (hj : j.as_table_like = none)
    (hne : ¬ (q = p ∧ kq = k)) :
    getEntry (setEntry t q kq i) p k = some j := by
  induction q generalizing t p with
  | nil =>
    rw [setEntry]
    cases p with
    | nil =>
      have hk : ¬ kq = k := fun he => hne ⟨rfl, he⟩
      rw [getEntry_nil] at h2 ⊢
      rw [tblGet_tblSet_ne _ _ hk]
      exact h2
    | cons a ps =>
      cases hg : tblGet t a with
      | none => rw [getEntry_cons_none _ _ hg] at h2; exact absurd h2 (by simp)
      | some ja =>
        cases ja with
        | table s =>
          have hak : ¬ a = kq := by
            intro he
            subst he
            rw [getEntry_nil, hg] at h1
            cases h1
            simp [Item.as_table_like] at hj0
          rw [getEntry_cons_table _ _ hg] at h2
          rw [getEntry_cons_table _ _ (by
            rw [tblGet_tblSet_ne _ _ (fun he => hak he.symm)]
            exact hg)]
          exact h2
        | str x y =>
          rw [getEntry_cons_nontable _ _ hg (by simp [Item.as_table_like])] at h2
          exact absurd h2 (by simp)
        | scalar x =>
          rw [getEntry_cons_nontable _ _ hg (by simp [Item.as_table_like])] at h2
          exact absurd h2 (by simp)
  | cons b qs ih =>
    cases hgb : tblGet t b with
    | none => rw [getEntry_cons_none _ _ hgb] at h1; exact absurd h1 (by simp)
    | some jb =>
      cases jb with
      | table sb =>
        rw [getEntry_cons_table _ _ hgb] at h1
        rw [setEntry, hgb]
        cases p with
        | nil =>
          rw [getEntry_nil] at h2 ⊢
          have hkb : ¬ b = k := by
            intro he
            subst he
            rw [h2] at hgb
            cases hgb
            simp [Item.as_table_like] at hj
          rw [tblGet_tblSet_ne _ _ hkb]
          exact h2
        | cons a ps =>
          by_cases hab : a = b
          · subst hab
            cases hga : tblGet t a with
            | none => rw [hga] at hgb; exact absurd hgb (by simp)
            | some ja =>
              rw [hga] at hgb
              cases hgb
              rw [getEntry_cons_table _ _ hga] at h2
              rw [getEntry_cons_table _ _ (tblGet_tblSet_self t a _)]
              exact ih h1 h2 (by
                intro ⟨hq, hk⟩
                exact hne ⟨by rw [hq], hk⟩)
          · cases hga : tblGet t a with
            | none => rw [getEntry_cons_none _ _ hga] at h2; exact absurd h2 (by simp)
            | some ja =>
              cases ja with
              | table sa =>
                rw [getEntry_cons_table _ _ hga] at h2
                rw [getEntry_cons_table _ _ (by
                  rw [tblGet_tblSet_ne _ _ (fun he => hab he.symm)]
                  exact hga)]
                exact h2
              | str x y =>
                rw [getEntry_cons_nontable _ _ hga (by simp [Item.as_table_like])] at h2
                exact absurd h2 (by simp)
              | scalar x =>
                rw [getEntry_cons_nontable _ _ hga (by simp [Item.as_table_like])] at h2
                exact absurd h2 (by simp)
      | str x y =>
        rw [getEntry_cons_nontable _ _ hgb (by simp [Item.as_table_like])] at h1
        exact absurd h1 (by simp)
      | scalar x =>
        rw [getEntry_cons_nontable _ _ hgb (by simp [Item.as_table_like])] at h1
        exact absurd h1 (by simp)

end Crosspmv

namespace Crosspmv

theorem tblGet_append_single_self (t : Tbl) (a : String) (i : Item)
    (h : tblGet t a = none) : tblGet (t ++ [(a, i)]) a = some i := by
  rw [tblGet_append_none _ h]
  simp [tblGet]

theorem insert_get {p : List String} {t u : Tbl} {k : String} {i : Item}
    (h : insertAtPath t p k i = some u) : getEntry u p k = some i := by
  induction p generalizing t u with
  | nil =>
    rw [insertAtPath] at h
    cases hg : tblGet t k with
    | some j => rw [hg] at h; exact absurd h (by simp)
    | none =>
      rw [hg] at h
      simp only [Option.some.injEq] at h
      subst h
      rw [getEntry_nil, tblGet_append_none _ hg]
      simp [tblGet]
  | cons a ps ih =>
    rw [insertAtPath] at h
    cases hg : tblGet t a with
    | some j =>
      cases j with
      | table s =>
        rw [hg] at h
        dsimp only at h
        cases hs : insertAtPath s ps k i with
        | none => rw [hs] at h; exact absurd h (by simp)
        | some s2 =>
          rw [hs] at h
          simp only [Option.some.injEq] at h
          subst h
          rw [getEntry_cons_table _ _ (tblGet_tblSet_self t a _)]
          exact ih hs
      | str x y => rw [hg] at h; exact absurd h (by simp)
      | scalar x => rw [hg] at h; exact absurd h (by simp)
    | none =>
      rw [hg] at h
      dsimp only at h
      cases hs : insertAtPath [] ps k i with
      | none => rw [hs] at h; exact absurd h (by simp)
      | some s2 =>
        rw [hs] at h
        simp only [Option.some.injEq] at h
        subst h
        rw [getEntry_cons_table _ _ (tblGet_append_single_self _ _ (Item.table s2) hg)]
        exact ih hs

theorem insert_frame {p : List String} {t u : Tbl} {k : String} {i : Item}
    {q : List String} {kq : String} {j : Item}
    (h : insertAtPath t p k i = some u)
    (h2 : getEntry t q kq = some j) (hj : j.as_table_like = none) :
    getEntry u q kq = some j := by
  induction p generalizing t u q with
  | nil =>
    rw [insertAtPath] at h
    cases hg : tblGet t k with
    | some j0 => rw [hg] at h; exact absurd h (by simp)
    | none =>
      rw [hg] at h
      simp only [Option.some.injEq] at h
      subst h
      cases q with
      | nil =>
        rw [getEntry_nil] at h2 ⊢
        exact tblGet_append_some _ h2
      | cons b qs =>
        cases hgb : tblGet t b with
        | none => rw [getEntry_cons_none _ _ hgb] at h2; exact absurd h2 (by simp)
        | some jb =>
          cases jb with
          | table sb =>
            rw [getEntry_cons_table _ _ hgb] at h2
            rw [getEntry_cons_table _ _ (tblGet_append_some _ hgb)]
            exact h2
          | str x y =>
            rw [getEntry_cons_nontable _ _ hgb (by simp [Item.as_table_like])] at h2
            exact absurd h2 (by simp)
          | scalar x =>
            rw [getEntry_cons_nontable _ _ hgb (by simp [Item.as_table_like])] at h2
            exact absurd h2 (by simp)
  | cons a ps ih =>
    rw [insertAtPath] at h
    cases hg : tblGet t a with
    | some j0 =>
      cases j0 with
      | table s =>
        rw [hg] at h
        dsimp only at h
        cases hs : insertAtPath s ps k i with
        | none => rw [hs] at h; exact absurd h (by simp)
        | some s2 =>
          rw [hs] at h
          simp only [Option.some.injEq] at h
          subst h
          cases q with
          | nil =>
            rw [getEntry_nil] at h2 ⊢
            have hka : ¬ a = kq := by
              intro he
              subst he
              rw [h2] at hg
              cases hg
              simp [Item.as_table_like] at hj
            rw [tblGet_tblSet_ne _ _ hka]
            exact h2
          | cons b qs =>
            by_cases hab : b = a
            · subst hab
              cases hgb : tblGet t b with
              | none => rw [hgb] at hg; exact absurd hg (by simp)
              | some jb =>
                rw [hgb] at hg
                cases hg
                rw [getEntry_cons_table _ _ hgb] at h2
                rw [getEntry_cons_table _ _ (tblGet_tblSet_self t b _)]
                exact ih hs h2
            · cases hgb : tblGet t b with
              | none => rw [getEntry_cons_none _ _ hgb] at h2; exact absurd h2 (by simp)
              | some jb =>
                cases jb with
                | table sb =>
                  rw [getEntry_cons_table _ _ hgb] at h2
                  rw [getEntry_cons_table _ _ (by
                    rw [tblGet_tblSet_ne _ _ (fun he => hab he.symm)]
                    exact hgb)]
                  exact h2
                | str x y =>
                  rw [getEntry_cons_nontable _ _ hgb (by simp [Item.as_table_like])] at h2
                  exact absurd h2 (by simp)
                | scalar x =>
                  rw [getEntry_cons_nontable _ _ hgb (by simp [Item.as_table_like])] at h2
                  exact absurd h2 (by simp)
      | str x y => rw [hg] at h; exact absurd h (by simp)
      | scalar x => rw [hg] at h; exact absurd h (by simp)
    | none =>
      rw [hg] at h
      dsimp only at h
      cases hs : insertAtPath [] ps k i with
      | none => rw [hs] at h; exact absurd h (by simp)
      | some s2 =>
        rw [hs] at h
        simp only [Option.some.injEq] at h
        subst h
        cases q with
        | nil =>
          rw [getEntry_nil] at h2 ⊢
          exact tblGet_append_some _ h2
        | cons b qs =>
          cases hgb : tblGet t b with
          | none => rw [getEntry_cons_none _ _ hgb] at h2; exact absurd h2 (by simp)
          | some jb =>
            cases jb with
            | table sb =>
              rw [getEntry_cons_table _ _ hgb] at h2
              rw [getEntry_cons_table _ _ (tblGet_append_some _ hgb)]
              exact h2
            | str x y =>
              rw [getEntry_cons_nontable _ _ hgb (by simp [Item.as_table_like])] at h2
              exact absurd h2 (by simp)
            | scalar x =>
              rw [getEntry_cons_nontable _ _ hgb (by simp [Item.as_table_like])] at h2
              exact absurd h2 (by simp)

end Crosspmv

namespace Crosspmv

theorem getEntry_empty (q : List String) (kq : String) : getEntry [] q kq = none := by
  cases q with
  | nil => rfl
  | cons b qs => rw [getEntry_cons_none _ _ (by rfl)]

theorem getEntry_congr_head {t t' : Tbl} {b : String} (qs : List String) (kq : String)
    (h : tblGet t' b = tblGet t b) : getEntry t' (b :: qs) kq = getEntry t (b :: qs) kq := by
  simp only [getEntry, descend, h]

theorem insert_dup {p : List String} {t : Tbl} {k : String} {j : Item} (i : Item)
    (h : getEntry t p k = some j) : insertAtPath t p k i = none := by
  induction p generalizing t with
  | nil =>
    rw [getEntry_nil] at h
    rw [insertAtPath, h]
  | cons a ps ih =>
    cases hg : tblGet t a with
    | none => rw [getEntry_cons_none _ _ hg] at h; exact absurd h (by simp)
    | some ja =>
      cases ja with
      | table s =>
        rw [getEntry_cons_table _ _ hg] at h
        rw [insertAtPath, hg]
        dsimp only
        rw [ih h]
      | str x y =>
        rw [getEntry_cons_nontable _ _ hg (by simp [Item.as_table_like])] at h
        exact absurd h (by simp)
      | scalar x =>
        rw [getEntry_cons_nontable _ _ hg (by simp [Item.as_table_like])] at h
        exact absurd h (by simp)

theorem insert_congr {p : List String} {t u : Tbl} {k : String} {i : Item} (i2 : Item)
    (h : insertAtPath t p k i = some u) :
    insertAtPath t p k i2 = some (setEntry u p k i2) := by
  induction p generalizing t u with
  | nil =>
    rw [insertAtPath] at h ⊢
    cases hg : tblGet t k with
    | some j => rw [hg] at h; exact absurd h (by simp)
    | none =>
      rw [hg] at h
      dsimp only at h ⊢
      simp only [Option.some.injEq] at h
      subst h
      rw [setEntry, tblSet_append_none _ _ hg]
      rw [show tblSet [(k, i)] k i2 = [(k, i2)] from by simp [tblSet]]
  | cons a ps ih =>
    rw [insertAtPath] at h ⊢
    cases hg : tblGet t a with
    | some ja =>
      cases ja with
      | table s =>
        rw [hg] at h
        dsimp only at h ⊢
        cases hs : insertAtPath s ps k i with
        | none => rw [hs] at h; exact absurd h (by simp)
        | some s2 =>
          rw [hs] at h
          simp only [Option.some.injEq] at h
          subst h
          rw [ih hs]
          rw [setEntry, tblGet_tblSet_self]
          dsimp only
          rw [tblSet_tblSet_same]
      | str x y => rw [hg] at h; exact absurd h (by simp)
      | scalar x => rw [hg] at h; exact absurd h (by simp)
    | none =>
      rw [hg] at h
      dsimp only at h ⊢
      cases hs : insertAtPath [] ps k i with
      | none => rw [hs] at h; exact absurd h (by simp)
      | some s2 =>
        rw [hs] at h
        simp only [Option.some.injEq] at h
        subst h
        rw [ih hs]
        rw [setEntry, tblGet_append_none _ hg]
        rw [show tblGet [(a, Item.table s2)] a = some (Item.table s2) from by simp [tblGet]]
        dsimp only
        rw [tblSet_append_none _ _ hg]
        rw [show tblSet [(a, Item.table s2)] a (Item.table (setEntry s2 ps k i2)) =
          [(a, Item.table (setEntry s2 ps k i2))] from by simp [tblSet]]

theorem insert_back_none {p : List String} {t u : Tbl} {k : String} {i : Item}
    {q : List String} {kq : String}
    (h : insertAtPath t p k i = some u) (hi : i.as_table_like = none)
    (hne : ¬ (p = q ∧ k = kq)) (h2 : getEntry t q kq = none) :
    getEntry u q kq = none ∨ ∃ es, getEntry u q kq = some (.table es) := by
  induction p generalizing t u q with
  | nil =>
    rw [insertAtPath] at h
    cases hg : tblGet t k with
    | some j => rw [hg] at h; exact absurd h (by simp)
    | none =>
      rw [hg] at h
      simp only [Option.some.injEq] at h
      subst h
      cases q with
      | nil =>
        have hk : ¬ k = kq := fun he => hne ⟨rfl, he⟩
        rw [getEntry_nil] at h2 ⊢
        left
        rw [tblGet_append_none _ h2]
        simp [tblGet, hk]
      | cons b qs =>
        cases hgb : tblGet t b with
        | some jb =>
          left
          rw [getEntry_congr_head _ _ ((tblGet_append_some _ hgb).trans hgb.symm)]
          exact h2
        | none =>
          by_cases hbk : b = k
          · subst hbk
            cases i with
            | str x y =>
              left
              rw [getEntry_cons_nontable _ _
                (tblGet_append_single_self _ _ (Item.str x y) hgb)
                (by simp [Item.as_table_like])]
            | scalar x =>
              left
              rw [getEntry_cons_nontable _ _
                (tblGet_append_single_self _ _ (Item.scalar x) hgb)
                (by simp [Item.as_table_like])]
            | table es => simp [Item.as_table_like] at hi
          · have hkb : ¬ k = b := fun he => hbk he.symm
            left
            rw [getEntry_cons_none _ _ (by
              rw [tblGet_append_none _ hgb]
              simp [tblGet, hkb])]
  | cons a ps ih =>
    rw [insertAtPath] at h
    cases hg : tblGet t a with
    | some ja =>
      cases ja with
      | table s =>
        rw [hg] at h
        dsimp only at h
        cases hs : insertAtPath s ps k i with
        | none => rw [hs] at h; exact absurd h (by simp)
        | some s2 =>
          rw [hs] at h
          simp only [Option.some.injEq] at h
          subst h
          cases q with
          | nil =>
            by_cases hkqa : kq = a
            · subst hkqa
              right
              exact ⟨s2, by rw [getEntry_nil, tblGet_tblSet_self]⟩
            · left
              rw [getEntry_nil] at h2 ⊢
              rw [tblGet_tblSet_ne _ _ (fun he => hkqa he.symm)]
              exact h2
          | cons b qs =>
            by_cases hba : b = a
            · subst hba
              rw [getEntry_cons_table _ _ hg] at h2
              have := ih hs (by
                intro ⟨hp, hk⟩
                exact hne ⟨by rw [hp], hk⟩) h2
              rw [getEntry_cons_table _ _ (tblGet_tblSet_self t b _)]
              exact this
            · left
              rw [getEntry_congr_head _ _ (tblGet_tblSet_ne _ _ (fun he => hba he.symm))]
              exact h2
      | str x y => rw [hg] at h; exact absurd h (by simp)
      | scalar x => rw [hg] at h; exact absurd h (by simp)
    | none =>
      rw [hg] at h
      dsimp only at h
      cases hs : insertAtPath [] ps k i with
      | none => rw [hs] at h; exact absurd h (by simp)
      | some s2 =>
        rw [hs] at h
        simp only [Option.some.injEq] at h
        subst h
        cases q with
        | nil =>
          by_cases hkqa : kq = a
          · subst hkqa
            right
            refine ⟨s2, ?_⟩
            rw [getEntry_nil, tblGet_append_none _ hg]
            simp [tblGet]
          · have hakq : ¬ a = kq := fun he => hkqa he.symm
            left
            rw [getEntry_nil] at h2 ⊢
            rw [tblGet_append_none _ h2]
            simp [tblGet, hakq]
        | cons b qs =>
          cases hgb : tblGet t b with
          | some jb =>
            left
            rw [getEntry_congr_head _ _ ((tblGet_append_some _ hgb).trans hgb.symm)]
            exact h2
          | none =>
            by_cases hba : b = a
            · subst hba
              rw [getEntry_cons_table _ _
                (tblGet_append_single_self _ _ (Item.table s2) hgb)]
              exact ih hs (by
                intro ⟨hp, hk⟩
                exact hne ⟨by rw [hp], hk⟩) (getEntry_empty _ _)
            · have hab2 : ¬ a = b := fun he => hba he.symm
              left
              rw [getEntry_cons_none _ _ (by
                rw [tblGet_append_none _ hgb]
                simp [tblGet, hab2])]

theorem insert_table_persist {p : List String} {t u : Tbl} {k : String} {i : Item}
    {q : List String} {kq : String} {es : Tbl}
    (h : insertAtPath t p k i = some u) (h2 : getEntry t q kq = some (.table es)) :
    ∃ es2, getEntry u q kq = some (.table es2) := by
  induction p generalizing t u q es with
  | nil =>
    rw [insertAtPath] at h
    cases hg : tblGet t k with
    | some j => rw [hg] at h; exact absurd h (by simp)
    | none =>
      rw [hg] at h
      simp only [Option.some.injEq] at h
      subst h
      cases q with
      | nil =>
        rw [getEntry_nil] at h2 ⊢
        exact ⟨es, tblGet_append_some _ h2⟩
      | cons b qs =>
        cases hgb : tblGet t b with
        | none => rw [getEntry_cons_none _ _ hgb] at h2; exact absurd h2 (by simp)
        | some jb =>
          refine ⟨es, ?_⟩
          rw [getEntry_congr_head _ _ ((tblGet_append_some _ hgb).trans hgb.symm)]
          exact h2
  | cons a ps ih =>
    rw [insertAtPath] at h
    cases hg : tblGet t a with
    | some ja =>
      cases ja with
      | table s =>
        rw [hg] at h
        dsimp only at h
        cases hs : insertAtPath s ps k i with
        | none => rw [hs] at h; exact absurd h (by simp)
        | some s2 =>
          rw [hs] at h
          simp only [Option.some.injEq] at h
          subst h
          cases q with
          | nil =>
            by_cases hkqa : kq = a
            · subst hkqa
              exact ⟨s2, by rw [getEntry_nil, tblGet_tblSet_self]⟩
            · refine ⟨es, ?_⟩
              rw [getEntry_nil] at h2 ⊢
              rw [tblGet_tblSet_ne _ _ (fun he => hkqa he.symm)]
              exact h2
          | cons b qs =>
            by_cases hba : b = a
            · subst hba
              rw [getEntry_cons_table _ _ hg] at h2
              obtain ⟨es2, hes2⟩ := ih hs h2
              refine ⟨es2, ?_⟩
              rw [getEntry_cons_table _ _ (tblGet_tblSet_self t b _)]
              exact hes2
            · refine ⟨es, ?_⟩
              rw [getEntry_congr_head _ _ (tblGet_tblSet_ne _ _ (fun he => hba he.symm))]
              exact h2
      | str x y => rw [hg] at h; exact absurd h (by simp)
      | scalar x => rw [hg] at h; exact absurd h (by simp)
    | none =>
      rw [hg] at h
      dsimp only at h
      cases hs : insertAtPath [] ps k i with
      | none => rw [hs] at h; exact absurd h (by simp)
      | some s2 =>
        rw [hs] at h
        simp only [Option.some.injEq] at h
        subst h
        cases q with
        | nil =>
          refine ⟨es, ?_⟩
          rw [getEntry_nil] at h2 ⊢
          exact tblGet_append_some _ h2
        | cons b qs =>
          cases hgb : tblGet t b with
          | none => rw [getEntry_cons_none _ _ hgb] at h2; exact absurd h2 (by simp)
          | some jb =>
            refine ⟨es, ?_⟩
            rw [getEntry_congr_head _ _ ((tblGet_append_some _ hgb).trans hgb.symm)]
            exact h2

end Crosspmv

namespace Crosspmv

theorem insert_setEntry_comm {p : List String} {t u : Tbl} {k : String} {i : Item}
    {q : List String} {kq : String} {j0 : Item} (i2 : Item)
    (h : insertAtPath t p k i = some u)
    (h1 : getEntry t q kq = some j0) (hj0 : j0.as_table_like = none)
    (hne : ¬ (p = q ∧ k = kq)) :
    insertAtPath (setEntry t q kq i2) p k i = some (setEntry u q kq i2) := by
  induction p generalizing t u q with
  | nil =>
    rw [insertAtPath] at h
    cases hg : tblGet t k with
    | some j => rw [hg] at h; exact absurd h (by simp)
    | none =>
      rw [hg] at h
      dsimp only at h
      simp only [Option.some.injEq] at h
      subst h
      cases q with
      | nil =>
        have hkkq : ¬ kq = k := fun he => hne ⟨rfl, he.symm⟩
        rw [getEntry_nil] at h1
        rw [setEntry, setEntry, insertAtPath, tblGet_tblSet_ne _ _ hkkq, hg]
        rw [tblSet_append_mem _ _ h1]
      | cons b qs =>
        cases hgb : tblGet t b with
        | none => rw [getEntry_cons_none _ _ hgb] at h1; exact absurd h1 (by simp)
        | some jb =>
          cases jb with
          | table sb =>
            have hkb : ¬ k = b := by
              intro he
              subst he
              rw [hgb] at hg
              exact absurd hg (by simp)
            rw [setEntry, hgb, setEntry, tblGet_append_some _ hgb]
            dsimp only
            rw [insertAtPath, tblGet_tblSet_ne _ _ (fun he => hkb he.symm), hg]
            rw [tblSet_append_mem _ _ hgb]
          | str x y =>
            rw [getEntry_cons_nontable _ _ hgb (by simp [Item.as_table_like])] at h1
            exact absurd h1 (by simp)
          | scalar x =>
            rw [getEntry_cons_nontable _ _ hgb (by simp [Item.as_table_like])] at h1
            exact absurd h1 (by simp)
  | cons a ps ih =>
    rw [insertAtPath] at h
    cases hg : tblGet t a with
    | some ja =>
      cases ja with
      | table s =>
        rw [hg] at h
        dsimp only at h
        cases hs : insertAtPath s ps k i with
        | none => rw [hs] at h; exact absurd h (by simp)
        | some s2 =>
          rw [hs] at h
          simp only [Option.some.injEq] at h
          subst h
          cases q with
          | nil =>
            rw [getEntry_nil] at h1
            have hkqa : ¬ kq = a := by
              intro he
              subst he
              rw [h1] at hg
              cases hg
              simp [Item.as_table_like] at hj0
            rw [setEntry, setEntry, insertAtPath, tblGet_tblSet_ne _ _ hkqa, hg]
            dsimp only
            rw [hs]
            dsimp only
            rw [tblSet_comm _ _ hkqa h1]
          | cons b qs =>
            by_cases hba : b = a
            · subst hba
              cases hgb : tblGet t b with
              | none => rw [hgb] at hg; exact absurd hg (by simp)
              | some jb =>
                rw [hgb] at hg
                cases hg
                rw [getEntry_cons_table _ _ hgb] at h1
                rw [setEntry, hgb]
                dsimp only
                rw [insertAtPath, tblGet_tblSet_self]
                dsimp only
                rw [ih hs h1 (by
                  intro ⟨hp, hk⟩
                  exact hne ⟨by rw [hp], hk⟩)]
                dsimp only
                rw [setEntry, tblGet_tblSet_self]
                dsimp only
                rw [tblSet_tblSet_same, tblSet_tblSet_same]
            · cases hgb : tblGet t b with
              | none => rw [getEntry_cons_none _ _ hgb] at h1; exact absurd h1 (by simp)
              | some jb =>
                cases jb with
                | table sb =>
                  rw [setEntry, hgb]
                  dsimp only
                  rw [insertAtPath, tblGet_tblSet_ne _ _ hba, hg]
                  dsimp only
                  rw [hs]
                  dsimp only
                  rw [setEntry, tblGet_tblSet_ne _ _ (fun he => hba he.symm), hgb]
                  dsimp only
                  rw [tblSet_comm _ _ hba hgb]
                | str x y =>
                  rw [getEntry_cons_nontable _ _ hgb (by simp [Item.as_table_like])] at h1
                  exact absurd h1 (by simp)
                | scalar x =>
                  rw [getEntry_cons_nontable _ _ hgb (by simp [Item.as_table_like])] at h1
                  exact absurd h1 (by simp)
      | str x y => rw [hg] at h; exact absurd h (by simp)
      | scalar x => rw [hg] at h; exact absurd h (by simp)
    | none =>
      rw [hg] at h
      dsimp only at h
      cases hs : insertAtPath [] ps k i with
      | none => rw [hs] at h; exact absurd h (by simp)
      | some s2 =>
        rw [hs] at h
        simp only [Option.some.injEq] at h
        subst h
        cases q with
        | nil =>
          rw [getEntry_nil] at h1
          have hkqa : ¬ kq = a := by
            intro he
            subst he
            rw [h1] at hg
            exact absurd hg (by simp)
          rw [setEntry, setEntry, insertAtPath, tblGet_tblSet_ne _ _ hkqa, hg]
          dsimp only
          rw [hs]
          dsimp only
          rw [tblSet_append_mem _ _ h1]
        | cons b qs =>
          cases hgb : tblGet t b with
          | none => rw [getEntry_cons_none _ _ hgb] at h1; exact absurd h1 (by simp)
          | some jb =>
            cases jb with
            | table sb =>
              have hba : ¬ b = a := by
                intro he
                subst he
                rw [hgb] at hg
                exact absurd hg (by simp)
              rw [setEntry, hgb]
              dsimp only
              rw [insertAtPath, tblGet_tblSet_ne _ _ hba, hg]
              dsimp only
              rw [hs]
              dsimp only
              rw [setEntry, tblGet_append_some _ hgb]
              dsimp only
              rw [tblSet_append_mem _ _ hgb]
            | str x y =>
              rw [getEntry_cons_nontable _ _ hgb (by simp [Item.as_table_like])] at h1
              exact absurd h1 (by simp)
            | scalar x =>
              rw [getEntry_cons_nontable _ _ hgb (by simp [Item.as_table_like])] at h1
              exact absurd h1 (by simp)

end Crosspmv

namespace Crosspmv

theorem ensure_frame {p : List String} {t u : Tbl}
    {q : List String} {kq : String} {j : Item}
    (h : ensurePath t p = some u)
    (h2 : getEntry t q kq = some j) (hj : j.as_table_like = none) :
    getEntry u q kq = some j := by
  induction p generalizing t u q with
  | nil =>
    rw [ensurePath] at h
    simp only [Option.some.injEq] at h
    subst h
    exact h2
  | cons a ps ih =>
    rw [ensurePath] at h
    cases hg : tblGet t a with
    | some ja =>
      cases ja with
      | table s =>
        rw [hg] at h
        dsimp only at h
        cases hs : ensurePath s ps with
        | none => rw [hs] at h; exact absurd h (by simp)
        | some s2 =>
          rw [hs] at h
          simp only [Option.some.injEq] at h
          subst h
          cases q with
          | nil =>
            rw [getEntry_nil] at h2 ⊢
            have hka : ¬ a = kq := by
              intro he
              subst he
              rw [h2] at hg
              cases hg
              simp [Item.as_table_like] at hj
            rw [tblGet_tblSet_ne _ _ hka]
            exact h2
          | cons b qs =>
            by_cases hba : b = a
            · subst hba
              cases hgb : tblGet t b with
              | none => rw [hgb] at hg; exact absurd hg (by simp)
              | some jb =>
                rw [hgb] at hg
                cases hg
                rw [getEntry_cons_table _ _ hgb] at h2
                rw [getEntry_cons_table _ _ (tblGet_tblSet_self t b _)]
                exact ih hs h2
            · rw [getEntry_congr_head _ _ (tblGet_tblSet_ne _ _ (fun he => hba he.symm))]
              exact h2
      | str x y => rw [hg] at h; exact absurd h (by simp)
      | scalar x => rw [hg] at h; exact absurd h (by simp)
    | none =>
      rw [hg] at h
      dsimp only at h
      cases hs : ensurePath [] ps with
      | none => rw [hs] at h; exact absurd h (by simp)
      | some s2 =>
        rw [hs] at h
        simp only [Option.some.injEq] at h
        subst h
        cases q with
        | nil =>
          rw [getEntry_nil] at h2 ⊢
          exact tblGet_append_some _ h2
        | cons b qs =>
          cases hgb : tblGet t b with
          | none => rw [getEntry_cons_none _ _ hgb] at h2; exact absurd h2 (by simp)
          | some jb =>
            rw [getEntry_congr_head _ _ ((tblGet_append_some _ hgb).trans hgb.symm)]
            exact h2

theorem ensure_back_none {p : List String} {t u : Tbl}
    {q : List String} {kq : String}
    (h : ensurePath t p = some u) (h2 : getEntry t q kq = none) :
    getEntry u q kq = none ∨ ∃ es, getEntry u q kq = some (.table es) := by
  induction p generalizing t u q with
  | nil =>
    rw [ensurePath] at h
    simp only [Option.some.injEq] at h
    subst h
    exact Or.inl h2
  | cons a ps ih =>
    rw [ensurePath] at h
    cases hg : tblGet t a with
    | some ja =>
      cases ja with
      | table s =>
        rw [hg] at h
        dsimp only at h
        cases hs : ensurePath s ps with
        | none => rw [hs] at h; exact absurd h (by simp)
        | some s2 =>
          rw [hs] at h
          simp only [Option.some.injEq] at h
          subst h
          cases q with
          | nil =>
            by_cases hkqa : kq = a
            · subst hkqa
              right
              exact ⟨s2, by rw [getEntry_nil, tblGet_tblSet_self]⟩
            · left
              rw [getEntry_nil] at h2 ⊢
              rw [tblGet_tblSet_ne _ _ (fun he => hkqa he.symm)]
              exact h2
          | cons b qs =>
            by_cases hba : b = a
            · subst hba
              rw [getEntry_cons_table _ _ hg] at h2
              rw [getEntry_cons_table _ _ (tblGet_tblSet_self t b _)]
              exact ih hs h2
            · left
              rw [getEntry_congr_head _ _ (tblGet_tblSet_ne _ _ (fun he => hba he.symm))]
              exact h2
      | str x y => rw [hg] at h; exact absurd h (by simp)
      | scalar x => rw [hg] at h; exact absurd h (by simp)
    | none =>
      rw [hg] at h
      dsimp only at h
      cases hs : ensurePath [] ps with
      | none => rw [hs] at h; exact absurd h (by simp)
      | some s2 =>
        rw [hs] at h
        simp only [Option.some.injEq] at h
        subst h
        cases q with
        | nil =>
          by_cases hkqa : kq = a
          · subst hkqa
            right
            refine ⟨s2, ?_⟩
            rw [getEntry_nil, tblGet_append_none _ hg]
            simp [tblGet]
          · have hakq : ¬ a = kq := fun he => hkqa he.symm
            left
            rw [getEntry_nil] at h2 ⊢
            rw [tblGet_append_none _ h2]
            simp [tblGet, hakq]
        | cons b qs =>
          cases hgb : tblGet t b with
          | some jb =>
            left
            rw [getEntry_congr_head _ _ ((tblGet_append_some _ hgb).trans hgb.symm)]
            exact h2
          | none =>
            by_cases hba : b = a
            · subst hba
              rw [getEntry_cons_table _ _
                (tblGet_append_single_self _ _ (Item.table s2) hgb)]
              exact ih hs (getEntry_empty _ _)
            · have hab2 : ¬ a = b := fun he => hba he.symm
              left
              rw [getEntry_cons_none _ _ (by
                rw [tblGet_append_none _ hgb]
                simp [tblGet, hab2])]

theorem ensure_table_persist {p : List String} {t u : Tbl}
    {q : List String} {kq : String} {es : Tbl}
    (h : ensurePath t p = some u) (h2 : getEntry t q kq = some (.table es)) :
    ∃ es2, getEntry u q kq = some (.table es2) := by
  induction p generalizing t u q es with
  | nil =>
    rw [ensurePath] at h
    simp only [Option.some.injEq] at h
    subst h
    exact ⟨es, h2⟩
  | cons a ps ih =>
    rw [ensurePath] at h
    cases hg : tblGet t a with
    | some ja =>
      cases ja with
      | table s =>
        rw [hg] at h
        dsimp only at h
        cases hs : ensurePath s ps with
        | none => rw [hs] at h; exact absurd h (by simp)
        | some s2 =>
          rw [hs] at h
          simp only [Option.some.injEq] at h
          subst h
          cases q with
          | nil =>
            by_cases hkqa : kq = a
            · subst hkqa
              exact ⟨s2, by rw [getEntry_nil, tblGet_tblSet_self]⟩
            · refine ⟨es, ?_⟩
              rw [getEntry_nil] at h2 ⊢
              rw [tblGet_tblSet_ne _ _ (fun he => hkqa he.symm)]
              exact h2
          | cons b qs =>
            by_cases hba : b = a
            · subst hba
              rw [getEntry_cons_table _ _ hg] at h2
              obtain ⟨es2, hes2⟩ := ih hs h2
              refine ⟨es2, ?_⟩
              rw [getEntry_cons_table _ _ (tblGet_tblSet_self t b _)]
              exact hes2
            · refine ⟨es, ?_⟩
              rw [getEntry_congr_head _ _ (tblGet_tblSet_ne _ _ (fun he => hba he.symm))]
              exact h2
      | str x y => rw [hg] at h; exact absurd h (by simp)
      | scalar x => rw [hg] at h; exact absurd h (by simp)
    | none =>
      rw [hg] at h
      dsimp only at h
      cases hs : ensurePath [] ps with
      | none => rw [hs] at h; exact absurd h (by simp)
      | some s2 =>
        rw [hs] at h
        simp only [Option.some.injEq] at h
        subst h
        cases q with
        | nil =>
          refine ⟨es, ?_⟩
          rw [getEntry_nil] at h2 ⊢
          exact tblGet_append_some _ h2
        | cons b qs =>
          cases hgb : tblGet t b with
          | none => rw [getEntry_cons_none _ _ hgb] at h2; exact absurd h2 (by simp)
          | some jb =>
            refine ⟨es, ?_⟩
            rw [getEntry_congr_head _ _ ((tblGet_append_some _ hgb).trans hgb.symm)]
            exact h2

theorem ensure_setEntry_comm {p : List String} {t u : Tbl}
    {q : List String} {kq : String} {j0 : Item} (i2 : Item)
    (h : ensurePath t p = some u)
    (h1 : getEntry t q kq = some j0) (hj0 : j0.as_table_like = none) :
    ensurePath (setEntry t q kq i2) p = some (setEntry u q kq i2) := by
  induction p generalizing t u q with
  | nil =>
    rw [ensurePath] at h
    simp only [Option.some.injEq] at h
    subst h
    rw [ensurePath]
  | cons a ps ih =>
    rw [ensurePath] at h
    cases hg : tblGet t a with
    | some ja =>
      cases ja with
      | table s =>
        rw [hg] at h
        dsimp only at h
        cases hs : ensurePath s ps with
        | none => rw [hs] at h; exact absurd h (by simp)
        | some s2 =>
          rw [hs] at h
          simp only [Option.some.injEq] at h
          subst h
          cases q with
          | nil =>
            rw [getEntry_nil] at h1
            have hkqa : ¬ kq = a := by
              intro he
              subst he
              rw [h1] at hg
              cases hg
              simp [Item.as_table_like] at hj0
            rw [setEntry, setEntry, ensurePath, tblGet_tblSet_ne _ _ hkqa, hg]
            dsimp only
            rw [hs]
            dsimp only
            rw [tblSet_comm _ _ hkqa h1]
          | cons b qs =>
            by_cases hba : b = a
            · subst hba
              cases hgb : tblGet t b with
              | none => rw [hgb] at hg; exact absurd hg (by simp)
              | some jb =>
                rw [hgb] at hg
                cases hg
                rw [getEntry_cons_table _ _ hgb] at h1
                rw [setEntry, hgb]
                dsimp only
                rw [ensurePath, tblGet_tblSet_self]
                dsimp only
                rw [ih hs h1]
                dsimp only
                rw [setEntry, tblGet_tblSet_self]
                dsimp only
                rw [tblSet_tblSet_same, tblSet_tblSet_same]
            · cases hgb : tblGet t b with
              | none => rw [getEntry_cons_none _ _ hgb] at h1; exact absurd h1 (by simp)
              | some jb =>
                cases jb with
                | table sb =>
                  rw [setEntry, hgb]
                  dsimp only
                  rw [ensurePath, tblGet_tblSet_ne _ _ hba, hg]
                  dsimp only
                  rw [hs]
                  dsimp only
                  rw [setEntry, tblGet_tblSet_ne _ _ (fun he => hba he.symm), hgb]
                  dsimp only
                  rw [tblSet_comm _ _ hba hgb]
                | str x y =>
                  rw [getEntry_cons_nontable _ _ hgb (by simp [Item.as_table_like])] at h1
                  exact absurd h1 (by simp)
                | scalar x =>
                  rw [getEntry_cons_nontable _ _ hgb (by simp [Item.as_table_like])] at h1
                  exact absurd h1 (by simp)
      | str x y => rw [hg] at h; exact absurd h (by simp)
      | scalar x => rw [hg] at h; exact absurd h (by simp)
    | none =>
      rw [hg] at h
      dsimp only at h
      cases hs : ensurePath [] ps with
      | none => rw [hs] at h; exact absurd h (by simp)
      | some s2 =>
        rw [hs] at h
        simp only [Option.some.injEq] at h
        subst h
        cases q with
        | nil =>
          rw [getEntry_nil] at h1
          have hkqa : ¬ kq = a := by
            intro he
            subst he
            rw [h1] at hg
            exact absurd hg (by simp)
          rw [setEntry, setEntry, ensurePath, tblGet_tblSet_ne _ _ hkqa, hg]
          dsimp only
          rw [hs]
          dsimp only
          rw [tblSet_append_mem _ _ h1]
        | cons b qs =>
          cases hgb : tblGet t b with
          | none => rw [getEntry_cons_none _ _ hgb] at h1; exact absurd h1 (by simp)
          | some jb =>
            cases jb with
            | table sb =>
              have hba : ¬ b = a := by
                intro he
                subst he
                rw [hgb] at hg
                exact absurd hg (by simp)
              rw [setEntry, hgb]
              dsimp only
              rw [ensurePath, tblGet_tblSet_ne _ _ hba, hg]
              dsimp only
              rw [hs]
              dsimp only
              rw [setEntry, tblGet_append_some _ hgb]
              dsimp only
              rw [tblSet_append_mem _ _ hgb]
            | str x y =>
              rw [getEntry_cons_nontable _ _ hgb (by simp [Item.as_table_like])] at h1
              exact absurd h1 (by simp)
            | scalar x =>
              rw [getEntry_cons_nontable _ _ hgb (by simp [Item.as_table_like])] at h1
              exact absurd h1 (by simp)

end Crosspmv

namespace Crosspmv

theorem build_frame {ls : List Line} {t tf : Tbl} {p0 : List String}
    {q : List String} {kq : String} {j : Item}
    (h : buildTree ls t p0 = some tf)
    (h2 : getEntry t q kq = some j) (hj : j.as_table_like = none) :
    getEntry tf q kq = some j := by
  induction ls generalizing t p0 with
  | nil =>
    rw [buildTree] at h
    simp only [Option.some.injEq] at h
    subst h
    exact h2
  | cons l ls ih =>
    cases l with
    | other raw =>
      rw [buildTree] at h
      exact ih h h2
    | header raw path =>
      rw [buildTree] at h
      cases he : ensurePath t path with
      | none => rw [he] at h; exact absurd h (by simp)
      | some t2 =>
        rw [he] at h
        exact ih h (ensure_frame he h2 hj)
    | kv pre key v post =>
      rw [buildTree] at h
      cases hi : insertAtPath t p0 key (itemOfVal v) with
      | none => rw [hi] at h; exact absurd h (by simp)
      | some t2 =>
        rw [hi] at h
        exact ih h (insert_frame hi h2 hj)

theorem build_table_persist {ls : List Line} {t tf : Tbl} {p0 : List String}
    {q : List String} {kq : String} {es : Tbl}
    (h : buildTree ls t p0 = some tf)
    (h2 : getEntry t q kq = some (.table es)) :
    ∃ es2, getEntry tf q kq = some (.table es2) := by
  induction ls generalizing t p0 es with
  | nil =>
    rw [buildTree] at h
    simp only [Option.some.injEq] at h
    subst h
    exact ⟨es, h2⟩
  | cons l ls ih =>
    cases l with
    | other raw =>
      rw [buildTree] at h
      exact ih h h2
    | header raw path =>
      rw [buildTree] at h
      cases he : ensurePath t path with
      | none => rw [he] at h; exact absurd h (by simp)
      | some t2 =>
        rw [he] at h
        obtain ⟨es2, hes2⟩ := ensure_table_persist he h2
        exact ih h hes2
    | kv pre key v post =>
      rw [buildTree] at h
      cases hi : insertAtPath t p0 key (itemOfVal v) with
      | none => rw [hi] at h; exact absurd h (by simp)
      | some t2 =>
        rw [hi] at h
        obtain ⟨es2, hes2⟩ := insert_table_persist hi h2
        exact ih h hes2

theorem itemOfVal_nontable (v : Val) : (itemOfVal v).as_table_like = none := by
  cases v with
  | vStr s tk => simp [itemOfVal, Item.as_table_like]
  | vOther tk => simp [itemOfVal, Item.as_table_like]

theorem build_editLines_id {ls : List Line} {t tf : Tbl} {p0 : List String}
    {q : List String} {kq : String} {j0 : Item} (V : List Char)
    (h : buildTree ls t p0 = some tf)
    (h1 : getEntry t q kq = some j0) (hj0 : j0.as_table_like = none) :
    editLines q kq V ls p0 = ls := by
  induction ls generalizing t p0 with
  | nil => rfl
  | cons l ls ih =>
    cases l with
    | other raw =>
      rw [buildTree] at h
      rw [editLines, ih h h1]
    | header raw path =>
      rw [buildTree] at h
      cases he : ensurePath t path with
      | none => rw [he] at h; exact absurd h (by simp)
      | some t2 =>
        rw [he] at h
        rw [editLines, ih h (ensure_frame he h1 hj0)]
    | kv pre key v post =>
      rw [buildTree] at h
      cases hi : insertAtPath t p0 key (itemOfVal v) with
      | none => rw [hi] at h; exact absurd h (by simp)
      | some t2 =>
        rw [hi] at h
        have hne : ¬ (p0 = q ∧ key = kq) := by
          intro ⟨hp, hk⟩
          subst hp hk
          rw [insert_dup _ h1] at hi
          exact absurd hi (by simp)
        rw [editLines, if_neg hne, ih h (insert_frame hi h1 hj0)]

theorem build_setEntry_comm {ls : List Line} {t tf : Tbl} {p0 : List String}
    {q : List String} {kq : String} {j0 : Item} (i2 : Item)
    (h : buildTree ls t p0 = some tf)
    (h1 : getEntry t q kq = some j0) (hj0 : j0.as_table_like = none)
    (hi2 : i2.as_table_like = none) :
    buildTree ls (setEntry t q kq i2) p0 = some (setEntry tf q kq i2) := by
  induction ls generalizing t p0 with
  | nil =>
    rw [buildTree] at h
    simp only [Option.some.injEq] at h
    subst h
    rw [buildTree]
  | cons l ls ih =>
    cases l with
    | other raw =>
      rw [buildTree] at h
      rw [buildTree]
      exact ih h h1
    | header raw path =>
      rw [buildTree] at h
      cases he : ensurePath t path with
      | none => rw [he] at h; exact absurd h (by simp)
      | some t2 =>
        rw [he] at h
        rw [buildTree]
        rw [ensure_setEntry_comm i2 he h1 hj0]
        exact ih h (ensure_frame he h1 hj0)
    | kv pre key v post =>
      rw [buildTree] at h
      cases hi : insertAtPath t p0 key (itemOfVal v) with
      | none => rw [hi] at h; exact absurd h (by simp)
      | some t2 =>
        rw [hi] at h
        have hne : ¬ (p0 = q ∧ key = kq) := by
          intro ⟨hp, hk⟩
          subst hp hk
          rw [insert_dup _ h1] at hi
          exact absurd hi (by simp)
        rw [buildTree]
        rw [insert_setEntry_comm i2 hi h1 hj0 hne]
        exact ih h (insert_frame hi h1 hj0)

end Crosspmv

namespace Crosspmv

theorem build_edit {ls : List Line} {t tf : Tbl} {p0 q : List String} {kq : String}
    {s tok : List Char} (V : List Char)
    (h : buildTree ls t p0 = some tf)
    (h0 : getEntry t q kq = none)
    (h1 : getEntry tf q kq = some (.str s tok)) :
    ∃ L1 pre post L2,
      ls = L1 ++ Line.kv pre kq (.vStr s tok) post :: L2 ∧
      editLines q kq V ls p0 = L1 ++ Line.kv pre kq (.vStr V (quoteTok V)) post :: L2 ∧
      buildTree (editLines q kq V ls p0) t p0 =
        some (setEntry tf q kq (.str V (quoteTok V))) := by
  induction ls generalizing t p0 with
  | nil =>
    rw [buildTree] at h
    simp only [Option.some.injEq] at h
    subst h
    rw [h0] at h1
    exact absurd h1 (by simp)
  | cons l ls ih =>
    cases l with
    | other raw =>
      rw [buildTree] at h
      obtain ⟨L1, pre, post, L2, e1, e2, e3⟩ := ih h h0
      refine ⟨Line.other raw :: L1, pre, post, L2, ?_, ?_, ?_⟩
      · rw [List.cons_append, e1]
      · rw [editLines, e2, List.cons_append]
      · rw [editLines, buildTree]
        exact e3
    | header raw path =>
      rw [buildTree] at h
      cases he : ensurePath t path with
      | none => rw [he] at h; exact absurd h (by simp)
      | some t2 =>
        rw [he] at h
        have h02 : getEntry t2 q kq = none := by
          rcases ensure_back_none he h0 with hn | ⟨es, hes⟩
          · exact hn
          · obtain ⟨es2, hes2⟩ := build_table_persist h hes
            rw [h1] at hes2
            exact absurd hes2 (by simp)
        obtain ⟨L1, pre, post, L2, e1, e2, e3⟩ := ih h h02
        refine ⟨Line.header raw path :: L1, pre, post, L2, ?_, ?_, ?_⟩
        · rw [List.cons_append, e1]
        · rw [editLines, e2, List.cons_append]
        · rw [editLines, buildTree]
          rw [he]
          exact e3
    | kv pre2 key v post2 =>
      rw [buildTree] at h
      cases hi : insertAtPath t p0 key (itemOfVal v) with
      | none => rw [hi] at h; exact absurd h (by simp)
      | some t2 =>
        rw [hi] at h
        by_cases haddr : p0 = q ∧ key = kq
        · obtain ⟨hp, hk⟩ := haddr
          subst hp hk
          have hg2 : getEntry t2 p0 key = some (itemOfVal v) := insert_get hi
          have hgf : getEntry tf p0 key = some (itemOfVal v) :=
            build_frame h hg2 (itemOfVal_nontable v)
          rw [h1] at hgf
          cases v with
          | vOther tk0 => simp [itemOfVal] at hgf
          | vStr s0 tk0 =>
            simp only [itemOfVal, Option.some.injEq, Item.str.injEq] at hgf
            obtain ⟨hs0, htk0⟩ := hgf
            subst hs0 htk0
            refine ⟨[], pre2, post2, ls, by simp, ?_, ?_⟩
            · rw [editLines, if_pos ⟨rfl, rfl⟩, List.nil_append]
              rw [build_editLines_id V h hg2 (itemOfVal_nontable _)]
            · rw [editLines, if_pos ⟨rfl, rfl⟩]
              rw [build_editLines_id V h hg2 (itemOfVal_nontable _)]
              rw [buildTree]
              rw [show itemOfVal (Val.vStr V (quoteTok V)) = Item.str V (quoteTok V) from rfl]
              rw [insert_congr (Item.str V (quoteTok V)) hi]
              exact build_setEntry_comm _ h hg2 (itemOfVal_nontable _) (by
                simp [Item.as_table_like])
        · have h02 : getEntry t2 q kq = none := by
            rcases insert_back_none hi (itemOfVal_nontable v) haddr h0 with hn | ⟨es, hes⟩
            · exact hn
            · obtain ⟨es2, hes2⟩ := build_table_persist h hes
              rw [h1] at hes2
              exact absurd hes2 (by simp)
          obtain ⟨L1, pre, post, L2, e1, e2, e3⟩ := ih h h02
          refine ⟨Line.kv pre2 key v post2 :: L1, pre, post, L2, ?_, ?_, ?_⟩
          · rw [List.cons_append, e1]
          · rw [editLines, if_neg haddr, e2, List.cons_append]
          · rw [editLines, if_neg haddr, buildTree]
            rw [hi]
            exact e3

theorem renderWith_edit {ls : List Line} {t tf : Tbl} {p0 q : List String} {kq : String}
    {s tok : List Char} (V : List Char)
    (h : buildTree ls t p0 = some tf)
    (h1 : getEntry tf q kq = some (.str s tok)) :
    renderWith (setEntry tf q kq (.str V (quoteTok V))) ls p0 =
      (editLines q kq V ls p0).map renderLine := by
  induction ls generalizing t p0 with
  | nil => rfl
  | cons l ls ih =>
    cases l with
    | other raw =>
      rw [buildTree] at h
      rw [renderWith, editLines, List.map_cons, ih h]
      rfl
    | header raw path =>
      rw [buildTree] at h
      cases he : ensurePath t path with
      | none => rw [he] at h; exact absurd h (by simp)
      | some t2 =>
        rw [he] at h
        rw [renderWith, editLines, List.map_cons, ih h]
        rfl
    | kv pre2 key v post2 =>
      rw [buildTree] at h
      cases hi : insertAtPath t p0 key (itemOfVal v) with
      | none => rw [hi] at h; exact absurd h (by simp)
      | some t2 =>
        rw [hi] at h
        have hg2 : getEntry t2 p0 key = some (itemOfVal v) := insert_get hi
        have hgf : getEntry tf p0 key = some (itemOfVal v) :=
          build_frame h hg2 (itemOfVal_nontable v)
        by_cases haddr : p0 = q ∧ key = kq
        · obtain ⟨hp, hk⟩ := haddr
          subst hp hk
          have hset : getEntry (setEntry tf p0 key (.str V (quoteTok V))) p0 key =
              some (.str V (quoteTok V)) := getEntry_setEntry_self _ h1
          rw [renderWith, editLines, if_pos ⟨rfl, rfl⟩, List.map_cons]
          rw [hset]
          have hrest := ih h
          rw [build_editLines_id V h hg2 (itemOfVal_nontable _)] at hrest
          rw [hrest, build_editLines_id V h hg2 (itemOfVal_nontable _)]
          rfl
        · have hne2 : ¬ (q = p0 ∧ kq = key) := by
            intro ⟨ha, hb⟩
            exact haddr ⟨ha.symm, hb.symm⟩
          have hset : getEntry (setEntry tf q kq (.str V (quoteTok V))) p0 key =
              some (itemOfVal v) :=
            getEntry_setEntry_ne h1 (by simp [Item.as_table_like]) hgf
              (itemOfVal_nontable v) hne2
          rw [renderWith, editLines, if_neg haddr, List.map_cons]
          rw [hset]
          cases v with
          | vStr s0 tk0 =>
            rw [show itemOfVal (Val.vStr s0 tk0) = Item.str s0 tk0 from rfl]
            rw [ih h, renderLine, Val.tok]
          | vOther tk0 =>
            rw [show itemOfVal (Val.vOther tk0) = Item.scalar tk0 from rfl]
            rw [ih h, renderLine, Val.tok]

end Crosspmv

namespace Crosspmv

/-- Claim C1: the version setter's contract on a located package table: a missing
version key fails with `MissingPackageVersionField{workspace}` (no table is returned,
so the caller's tree is untouched and no version key is ever created); a non-string
version fails with `InvalidPackageVersionFieldDataType{workspace}`; an equal string
succeeds with `modified = false` and the table returned unchanged; a different string
succeeds with `modified = true`, replacing the value with a newly constructed string
scalar holding the desired version; and whenever the located package table holds a
string version, the enclosing `set_version_doc` (the body of `set_cargo_toml_version`)
succeeds. -/
theorem c1_set_package_version_contract (pt : Tbl) (version : String) (workspace : Bool) :
    (tblGet pt "version" = none →
      set_package_version pt version workspace =
        .error (.MissingPackageVersionField workspace)) ∧
    (∀ i, tblGet pt "version" = some i → i.as_str = none →
      set_package_version pt version workspace =
        .error (.InvalidPackageVersionFieldDataType workspace)) ∧
    (∀ s tk, tblGet pt "version" = some (.str s tk) → s = version.data →
      set_package_version pt version workspace = .ok (false, pt)) ∧
    (∀ s tk, tblGet pt "version" = some (.str s tk) → ¬ s = version.data →
      set_package_version pt version workspace =
        .ok (true, tblSet pt "version" (.str version.data (quoteTok version.data)))) ∧
    (∀ t wsT s tk, tblGet t "workspace" = some (.table wsT) →
      tblGet wsT "package" = some (.table pt) →
      tblGet pt "version" = some (.str s tk) →
      ∃ m t2, set_version_doc t version = .ok (m, t2)) ∧
    (∀ t s tk, tblGet t "workspace" = none →
      tblGet t "package" = some (.table pt) →
      tblGet pt "version" = some (.str s tk) →
      ∃ m t2, set_version_doc t version = .ok (m, t2)) := by
  have hset : ∀ (w : Bool) s tk, tblGet pt "version" = some (.str s tk) →
      (s = version.data → set_package_version pt version w = .ok (false, pt)) ∧
      (¬ s = version.data → set_package_version pt version w =
        .ok (true, tblSet pt "version" (.str version.data (quoteTok version.data)))) := by
    intro w s tk hv
    rw [set_package_version, hv]
    dsimp only [Item.as_str]
    constructor
    · intro he
      rw [if_pos he]
    · intro he
      rw [if_neg he]
  refine ⟨?_, ?_, ?_, ?_, ?_, ?_⟩
  · intro hv
    rw [set_package_version, hv]
  · intro i hv hstr
    rw [set_package_version, hv]
    dsimp only
    rw [hstr]
  · intro s tk hv he
    exact ((hset workspace s tk hv).1 he)
  · intro s tk hv he
    exact ((hset workspace s tk hv).2 he)
  · intro t wsT s tk hws hpk hv
    rw [set_version_doc, hws]
    dsimp only [Item.as_table_like]
    rw [hpk]
    dsimp only
    by_cases he : s = version.data
    · rw [((hset true s tk hv).1 he)]
      exact ⟨false, _, rfl⟩
    · rw [((hset true s tk hv).2 he)]
      exact ⟨true, _, rfl⟩
  · intro t s tk hws hpk hv
    rw [set_version_doc, hws]
    dsimp only
    rw [hpk]
    dsimp only [Item.as_table_like]
    by_cases he : s = version.data
    · rw [((hset false s tk hv).1 he)]
      exact ⟨false, _, rfl⟩
    · rw [((hset false s tk hv).2 he)]
      exact ⟨true, _, rfl⟩

/-- Claim C4: priority of the workspace placement: for a document with a valid
`workspace.package` table holding a string version and also a plain top-level
`package` table, the tree-level body of `set_cargo_toml_version` succeeds, never
touches the plain `package` entry, reports `modified` exactly when the workspace
version differs, and reads/writes only the version under `workspace.package`. -/
theorem c4_workspace_priority (t : Tbl) (version : String) (wsT pT : Tbl)
    (s tk : List Char) (pkgI : Item)
    (hws : tblGet t "workspace" = some (.table wsT))
    (hpk : tblGet wsT "package" = some (.table pT))
    (hv : tblGet pT "version" = some (.str s tk))
    (hplain : tblGet t "package" = some pkgI) :
    ∃ m t2, set_version_doc t version = .ok (m, t2) ∧
      tblGet t2 "package" = some pkgI ∧
      (s = version.data → m = false ∧
        getEntry t2 ["workspace", "package"] "version" = some (.str s tk)) ∧
      (¬ s = version.data → m = true ∧
        getEntry t2 ["workspace", "package"] "version" =
          some (.str version.data (quoteTok version.data))) := by
  have hwp : ¬ ("workspace" : String) = "package" := by decide
  rw [set_version_doc, hws]
  dsimp only [Item.as_table_like]
  rw [hpk]
  dsimp only
  rw [set_package_version, hv]
  dsimp only [Item.as_str]
  by_cases he : s = version.data
  · rw [if_pos he]
    refine ⟨false, _, rfl, ?_, ?_, ?_⟩
    · rw [tblGet_tblSet_ne _ _ hwp]
      exact hplain
    · intro _
      refine ⟨rfl, ?_⟩
      rw [getEntry_cons_table _ _ (tblGet_tblSet_self t "workspace" _),
        getEntry_cons_table _ _ (tblGet_tblSet_self wsT "package" _),
        getEntry_nil]
      exact hv
    · intro hne
      exact absurd he hne
  · rw [if_neg he]
    refine ⟨true, _, rfl, ?_, ?_, ?_⟩
    · rw [tblGet_tblSet_ne _ _ hwp]
      exact hplain
    · intro heq
      exact absurd heq he
    · intro _
      refine ⟨rfl, ?_⟩
      rw [getEntry_cons_table _ _ (tblGet_tblSet_self t "workspace" _),
        getEntry_cons_table _ _ (tblGet_tblSet_self wsT "package" _),
        getEntry_nil]
      exact tblGet_tblSet_self pT "version" _

/-- Claim C10 (implicit): the fallback to the plain `package` table happens only when
the `workspace` key is entirely absent: whenever a top-level `workspace` key is
present and its cascade fails — workspace not table-like, `workspace.package`
missing, `workspace.package` not table-like, `workspace.package.version` missing or
not a string — the workspace-qualified error is returned, for every document,
in particular even when a valid plain `package` table is also present. -/
theorem c10_workspace_error_no_fallback (t : Tbl) (version : String) (wsI : Item)
    (hws : tblGet t "workspace" = some wsI) :
    (wsI.as_table_like = none →
      set_version_doc t version = .error .InvalidWorkspaceFieldDataType) ∧
    (∀ wsT, wsI.as_table_like = some wsT → tblGet wsT "package" = none →
      set_version_doc t version = .error (.MissingPackageField true)) ∧
    (∀ wsT pkgI, wsI.as_table_like = some wsT → tblGet wsT "package" = some pkgI →
      pkgI.as_table_like = none →
      set_version_doc t version = .error (.InvalidPackageFieldDataType true)) ∧
    (∀ wsT pT, wsI.as_table_like = some wsT → tblGet wsT "package" = some (.table pT) →
      tblGet pT "version" = none →
      set_version_doc t version = .error (.MissingPackageVersionField true)) ∧
    (∀ wsT pT vi, wsI.as_table_like = some wsT →
      tblGet wsT "package" = some (.table pT) →
      tblGet pT "version" = some vi → vi.as_str = none →
      set_version_doc t version = .error (.InvalidPackageVersionFieldDataType true)) := by
  refine ⟨?_, ?_, ?_, ?_, ?_⟩
  · intro hts
    rw [set_version_doc, hws]
    dsimp only
    rw [hts]
  · intro wsT hts hpk
    rw [set_version_doc, hws]
    dsimp only
    rw [hts]
    dsimp only
    rw [hpk]
  · intro wsT pkgI hts hpk hpt
    rw [set_version_doc, hws]
    dsimp only
    rw [hts]
    dsimp only
    rw [hpk]
    dsimp only
    rw [hpt]
  · intro wsT pT hts hpk hv
    rw [set_version_doc, hws]
    dsimp only
    rw [hts]
    dsimp only
    rw [hpk]
    dsimp only [Item.as_table_like]
    rw [set_package_version, hv]
  · intro wsT pT vi hts hpk hv hstr
    rw [set_version_doc, hws]
    dsimp only
    rw [hts]
    dsimp only
    rw [hpk]
    dsimp only [Item.as_table_like]
    rw [set_package_version, hv]
    dsimp only
    rw [hstr]

end Crosspmv

namespace Crosspmv

theorem docLines_render_parse (contents : String) :
    ∀ l ∈ docLines contents, parseLine (renderLine l) = l ∧ '\n' ∉ renderLine l := by
  intro l hl
  rw [docLines] at hl
  obtain ⟨raw, hraw, rfl⟩ := List.mem_map.mp hl
  rw [renderLine_parseLine]
  rw [splitLines] at hraw
  exact ⟨rfl, splitOnChar_not_mem _ _ raw hraw⟩

theorem joinLines_middle (X Y : List (List Char)) :
    ∃ A B, ∀ z, joinLines (X ++ z :: Y) = A ++ (z ++ B) := by
  induction X with
  | nil =>
    cases Y with
    | nil => exact ⟨[], [], fun z => by simp [joinLines]⟩
    | cons y ys =>
      refine ⟨[], '\n' :: joinLines (y :: ys), fun z => ?_⟩
      rw [List.nil_append, joinLines_cons_ne _ (by simp), List.nil_append]
  | cons x X ih =>
    obtain ⟨A, B, hAB⟩ := ih
    refine ⟨x ++ '\n' :: A, B, fun z => ?_⟩
    rw [List.cons_append, joinLines_cons_ne _ (by simp), hAB z]
    simp [List.append_assoc]

theorem set_cargo_second_parse {contents : String} (version : String) {doc : Tbl}
    {q : List String} {s tk : List Char}
    (hb : buildTree (docLines contents) [] [] = some doc)
    (hget : getEntry doc q "version" = some (.str s tk)) :
    buildTree (docLines (String.mk (joinLines (renderWith
        (setEntry doc q "version" (.str version.data (quoteTok version.data)))
        (docLines contents) [])))) [] [] =
      some (setEntry doc q "version" (.str version.data (quoteTok version.data))) ∧
    ∃ a b, contents.data = a ++ (tk ++ b) ∧
      joinLines (renderWith (setEntry doc q "version"
          (.str version.data (quoteTok version.data))) (docLines contents) []) =
        a ++ (quoteTok version.data ++ b) := by
  obtain ⟨L1, pre, post, L2, e1, e2, e3⟩ :=
    build_edit version.data hb (getEntry_empty q "version") hget
  have hrw := renderWith_edit version.data hb hget
  have hmemo : Line.kv pre "version" (.vStr s tk) post ∈ docLines contents := by
    rw [e1]
    exact List.mem_append_right _ (List.mem_cons_self _ _)
  obtain ⟨horig, hnlo⟩ := docLines_render_parse contents _ hmemo
  obtain ⟨w1, kc, w2, w3, hpre, hw1, hkc, hkcne, hw2, hw3, hkey⟩ := parseLine_kv_inv horig
  have hreparse : parseLine (pre ++ quoteTok version.data ++ post) =
      Line.kv pre "version" (.vStr version.data (quoteTok version.data)) post := by
    cases kc with
    | nil => exact absurd rfl hkcne
    | cons k0 kc' =>
      subst hpre
      rw [hkey]
      exact parseLine_reparse version.data hw1 hkc hw2 hw3
  have hnl_pre : '\n' ∉ pre := fun hm => hnlo (by
    rw [renderLine]
    exact List.mem_append.mpr (Or.inl (List.mem_append.mpr (Or.inl hm))))
  have hnl_post : '\n' ∉ post := fun hm => hnlo (by
    rw [renderLine]
    exact List.mem_append.mpr (Or.inr hm))
  have hedit_mem : ∀ l ∈ editLines q "version" version.data (docLines contents) [],
      parseLine (renderLine l) = l ∧ '\n' ∉ renderLine l := by
    intro l hl
    rw [e2] at hl
    rcases List.mem_append.mp hl with h1 | h1
    · exact docLines_render_parse contents l (by
        rw [e1]; exact List.mem_append_left _ h1)
    · rcases List.mem_cons.mp h1 with rfl | h1
      · constructor
        · rw [renderLine, Val.tok]
          exact hreparse
        · rw [renderLine, Val.tok]
          intro hm
          rcases List.mem_append.mp hm with h2 | h2
          · rcases List.mem_append.mp h2 with h3 | h3
            · exact hnl_pre h3
            · exact quoteTok_no_newline _ h3
          · exact hnl_post h2
      · exact docLines_render_parse contents l (by
          rw [e1]; exact List.mem_append_right _ (List.mem_cons_of_mem _ h1))
  have hdocT : docLines (String.mk (joinLines (renderWith
      (setEntry doc q "version" (.str version.data (quoteTok version.data)))
      (docLines contents) []))) =
      editLines q "version" version.data (docLines contents) [] := by
    rw [docLines]
    rw [show (String.mk (joinLines (renderWith
      (setEntry doc q "version" (.str version.data (quoteTok version.data)))
      (docLines contents) []))).data = joinLines (renderWith
      (setEntry doc q "version" (.str version.data (quoteTok version.data)))
      (docLines contents) []) from rfl]
    rw [hrw, splitLines]
    rw [splitOnChar_joinLines (by
        rw [e2]
        simp) (by
        intro l hl
        obtain ⟨l0, hl0, rfl⟩ := List.mem_map.mp hl
        exact (hedit_mem l0 hl0).2)]
    rw [List.map_map]
    rw [List.map_congr_left (fun l hl => by
      simp only [Function.comp_apply]
      exact (hedit_mem l hl).1)]
    exact List.map_id _
  constructor
  · rw [hdocT]
    exact e3
  · obtain ⟨A, B, hAB⟩ := joinLines_middle (L1.map renderLine) (L2.map renderLine)
    have hlines : (docLines contents).map renderLine = splitLines contents.data := by
      rw [docLines, List.map_map]
      rw [List.map_congr_left (fun raw hraw => by
        simp only [Function.comp_apply]
        exact renderLine_parseLine raw)]
      exact List.map_id _
    refine ⟨A ++ pre, post ++ B, ?_, ?_⟩
    · have h1 : contents.data = joinLines (splitLines contents.data) := by
        rw [splitLines, joinLines_splitOnChar]
      rw [h1, ← hlines, e1, List.map_append, List.map_cons]
      rw [show renderLine (Line.kv pre "version" (.vStr s tk) post) =
        pre ++ tk ++ post from rfl]
      rw [hAB]
      simp [List.append_assoc]
    · rw [hrw, e2, List.map_append, List.map_cons]
      rw [show renderLine (Line.kv pre "version"
        (.vStr version.data (quoteTok version.data)) post) =
        pre ++ quoteTok version.data ++ post from rfl]
      rw [hAB]
      simp [List.append_assoc]

end Crosspmv

namespace Crosspmv

theorem set_cargo_modified_char {contents version T : String}
    (h : set_cargo_toml_version contents version = .ok (true, T)) :
    ∃ doc s tk, buildTree (docLines contents) [] [] = some doc ∧ ¬ s = version.data ∧
      ((∃ wsT pT, tblGet doc "workspace" = some (.table wsT) ∧
          tblGet wsT "package" = some (.table pT) ∧
          tblGet pT "version" = some (.str s tk) ∧
          getEntry doc ["workspace", "package"] "version" = some (.str s tk) ∧
          T = String.mk (joinLines (renderWith (setEntry doc ["workspace", "package"]
            "version" (.str version.data (quoteTok version.data)))
            (docLines contents) []))) ∨
        (∃ pT, tblGet doc "workspace" = none ∧
          tblGet doc "package" = some (.table pT) ∧
          tblGet pT "version" = some (.str s tk) ∧
          getEntry doc ["package"] "version" = some (.str s tk) ∧
          T = String.mk (joinLines (renderWith (setEntry doc ["package"] "version"
            (.str version.data (quoteTok version.data))) (docLines contents) [])))) := by
  rw [set_cargo_toml_version] at h
  cases hb : buildTree (docLines contents) [] [] with
  | none => rw [hb] at h; exact absurd h (by simp)
  | some doc =>
    rw [hb] at h
    dsimp only at h
    cases hd : set_version_doc doc version with
    | error e => rw [hd] at h; exact absurd h (by simp)
    | ok p =>
      obtain ⟨m0, doc2⟩ := p
      rw [hd] at h
      dsimp only at h
      cases m0 with
      | false => exact absurd h (by simp)
      | true =>
        simp only [if_pos, Except.ok.injEq, Prod.mk.injEq, true_and] at h
        rw [set_version_doc] at hd
        cases hws : tblGet doc "workspace" with
        | some wsI =>
          rw [hws] at hd
          dsimp only at hd
          cases hts : wsI.as_table_like with
          | none => rw [hts] at hd; exact absurd hd (by simp)
          | some wsT =>
            cases as_table_like_eq_some hts
            rw [hts] at hd
            dsimp only at hd
            cases hpk : tblGet wsT "package" with
            | none => rw [hpk] at hd; exact absurd hd (by simp)
            | some pkgI =>
              rw [hpk] at hd
              dsimp only at hd
              cases hpt : pkgI.as_table_like with
              | none => rw [hpt] at hd; exact absurd hd (by simp)
              | some pT =>
                cases as_table_like_eq_some hpt
                rw [hpt] at hd
                dsimp only at hd
                cases hsv : set_package_version pT version true with
                | error e => rw [hsv] at hd; exact absurd hd (by simp)
                | ok p1 =>
                  obtain ⟨m1, pT2⟩ := p1
                  rw [hsv] at hd
                  dsimp only at hd
                  simp only [Except.ok.injEq, Prod.mk.injEq] at hd
                  obtain ⟨hm1, hdoc2⟩ := hd
                  subst hm1
                  rw [set_package_version] at hsv
                  cases hv : tblGet pT "version" with
                  | none => rw [hv] at hsv; exact absurd hsv (by simp)
                  | some vi =>
                    rw [hv] at hsv
                    dsimp only at hsv
                    cases hstr : vi.as_str with
                    | none => rw [hstr] at hsv; exact absurd hsv (by simp)
                    | some s =>
                      obtain ⟨tk, rfl⟩ := as_str_eq_some hstr
                      rw [hstr] at hsv
                      dsimp only at hsv
                      by_cases hse : s = version.data
                      · rw [if_pos hse] at hsv
                        exact absurd hsv (by simp)
                      · rw [if_neg hse] at hsv
                        simp only [Except.ok.injEq, Prod.mk.injEq, true_and] at hsv
                        refine ⟨doc, s, tk, rfl, hse, Or.inl ⟨wsT, pT, hws, hpk, hv, ?_, ?_⟩⟩
                        · rw [getEntry_cons_table _ _ hws,
                            getEntry_cons_table _ _ hpk, getEntry_nil]
                          exact hv
                        · rw [← h]
                          have hset : setEntry doc ["workspace", "package"] "version"
                              (.str version.data (quoteTok version.data)) =
                              tblSet doc "workspace" (.table (tblSet wsT "package"
                                (.table (tblSet pT "version"
                                  (.str version.data (quoteTok version.data)))))) := by
                            rw [setEntry, hws]
                            dsimp only
                            rw [setEntry, hpk]
                            dsimp only
                            rw [setEntry]
                          rw [hset, ← hdoc2, ← hsv]
        | none =>
          rw [hws] at hd
          dsimp only at hd
          cases hpk : tblGet doc "package" with
          | none => rw [hpk] at hd; exact absurd hd (by simp)
          | some pkgI =>
            rw [hpk] at hd
            dsimp only at hd
            cases hpt : pkgI.as_table_like with
            | none => rw [hpt] at hd; exact absurd hd (by simp)
            | some pT =>
              cases as_table_like_eq_some hpt
              rw [hpt] at hd
              dsimp only at hd
              cases hsv : set_package_version pT version false with
              | error e => rw [hsv] at hd; exact absurd hd (by simp)
              | ok p1 =>
                obtain ⟨m1, pT2⟩ := p1
                rw [hsv] at hd
                dsimp only at hd
                simp only [Except.ok.injEq, Prod.mk.injEq] at hd
                obtain ⟨hm1, hdoc2⟩ := hd
                subst hm1
                rw [set_package_version] at hsv
                cases hv : tblGet pT "version" with
                | none => rw [hv] at hsv; exact absurd hsv (by simp)
                | some vi =>
                  rw [hv] at hsv
                  dsimp only at hsv
                  cases hstr : vi.as_str with
                  | none => rw [hstr] at hsv; exact absurd hsv (by simp)
                  | some s =>
                    obtain ⟨tk, rfl⟩ := as_str_eq_some hstr
                    rw [hstr] at hsv
                    dsimp only at hsv
                    by_cases hse : s = version.data
                    · rw [if_pos hse] at hsv
                      exact absurd hsv (by simp)
                    · rw [if_neg hse] at hsv
                      simp only [Except.ok.injEq, Prod.mk.injEq, true_and] at hsv
                      refine ⟨doc, s, tk, rfl, hse, Or.inr ⟨pT, hws, hpk, hv, ?_, ?_⟩⟩
                      · rw [getEntry_cons_table _ _ hpk, getEntry_nil]
                        exact hv
                      · rw [← h]
                        have hset : setEntry doc ["package"] "version"
                            (.str version.data (quoteTok version.data)) =
                            tblSet doc "package" (.table (tblSet pT "version"
                              (.str version.data (quoteTok version.data)))) := by
                          rw [setEntry, hpk]
                          dsimp only
                          rw [setEntry]
                        rw [hset, ← hdoc2, ← hsv]

end Crosspmv

namespace Crosspmv

/-- Claim C3: idempotence: whenever `set_cargo_toml_version` succeeds on input `C`
with output text `T`, a second application to `T` with the same version succeeds
with `modified = false` and output byte-identical to `T`. -/
theorem c3_idempotence (contents version : String) (m : Bool) (T : String)
    (h : set_cargo_toml_version contents version = .ok (m, T)) :
    set_cargo_toml_version T version = .ok (false, T) := by
  rw [set_cargo_toml_version] at h
  cases hb : buildTree (docLines contents) [] [] with
  | none => rw [hb] at h; exact absurd h (by simp)
  | some doc =>
    rw [hb] at h
    dsimp only at h
    cases hd : set_version_doc doc version with
    | error e => rw [hd] at h; exact absurd h (by simp)
    | ok p =>
      obtain ⟨m0, doc2⟩ := p
      rw [hd] at h
      dsimp only at h
      cases m0 with
      | false =>
        rw [if_neg (by decide)] at h
        simp only [Except.ok.injEq, Prod.mk.injEq] at h
        obtain ⟨hm, hT⟩ := h
        subst hm
        subst hT
        rw [set_cargo_toml_version, hb]
        dsimp only
        rw [hd]
        rfl
      | true =>
        rw [if_pos rfl] at h
        simp only [Except.ok.injEq, Prod.mk.injEq, true_and] at h
        obtain ⟨hm, hT⟩ := h
        subst hm
        have hmod : set_cargo_toml_version contents version = .ok (true, T) := by
          rw [set_cargo_toml_version, hb]
          dsimp only
          rw [hd]
          dsimp only
          rw [if_pos rfl, hT]
        obtain ⟨doc', s, tk, hb', hsne, hbranch⟩ := set_cargo_modified_char hmod
        have hdd : doc' = doc := by
          rw [hb] at hb'
          exact (Option.some.injEq _ _ ▸ hb').symm
        subst hdd
        rcases hbranch with ⟨wsT, pT, hws, hpk, hv, hget, hTmk⟩ |
          ⟨pT, hws, hpk, hv, hget, hTmk⟩
        · obtain ⟨hb2, _⟩ := set_cargo_second_parse version hb' hget
          rw [← hTmk] at hb2
          rw [set_cargo_toml_version, hb2]
          dsimp only
          have hset : setEntry doc' ["workspace", "package"] "version"
              (.str version.data (quoteTok version.data)) =
              tblSet doc' "workspace" (.table (tblSet wsT "package"
                (.table (tblSet pT "version"
                  (.str version.data (quoteTok version.data)))))) := by
            rw [setEntry, hws]
            dsimp only
            rw [setEntry, hpk]
            dsimp only
            rw [setEntry]
          rw [hset]
          rw [set_version_doc, tblGet_tblSet_self]
          dsimp only [Item.as_table_like]
          rw [tblGet_tblSet_self]
          dsimp only
          rw [set_package_version, tblGet_tblSet_self]
          dsimp only [Item.as_str]
          rw [if_pos rfl]
          rfl
        · obtain ⟨hb2, _⟩ := set_cargo_second_parse version hb' hget
          rw [← hTmk] at hb2
          rw [set_cargo_toml_version, hb2]
          dsimp only
          have hset : setEntry doc' ["package"] "version"
              (.str version.data (quoteTok version.data)) =
              tblSet doc' "package" (.table (tblSet pT "version"
                (.str version.data (quoteTok version.data)))) := by
            rw [setEntry, hpk]
            dsimp only
            rw [setEntry]
          rw [hset]
          rw [set_version_doc,
            tblGet_tblSet_ne _ _ (show ¬ ("package" : String) = "workspace" by decide),
            hws]
          dsimp only
          rw [tblGet_tblSet_self]
          dsimp only [Item.as_table_like]
          rw [set_package_version, tblGet_tblSet_self]
          dsimp only [Item.as_str]
          rw [if_pos rfl]
          rfl

/-- Claim C6: minimal diff: whenever `set_cargo_toml_version` returns
`modified = true`, the input and output texts share a common prefix `a` and common
suffix `b` such that the input is `a ++ oldTok ++ b` (with `oldTok` the original
version value's token) and the output is exactly `a ++ quoteTok version ++ b` —
every byte outside the version value's token span is unchanged. -/
theorem c6_minimal_diff (contents version T : String)
    (h : set_cargo_toml_version contents version = .ok (true, T)) :
    ∃ a oldTok b, contents.data = a ++ (oldTok ++ b) ∧
      T.data = a ++ (quoteTok version.data ++ b) := by
  obtain ⟨doc, s, tk, hb, hsne, hbranch⟩ := set_cargo_modified_char h
  rcases hbranch with ⟨wsT, pT, hws, hpk, hv, hget, hTmk⟩ |
    ⟨pT, hws, hpk, hv, hget, hTmk⟩
  · obtain ⟨_, a, b, h1, h2⟩ := set_cargo_second_parse version hb hget
    refine ⟨a, tk, b, h1, ?_⟩
    rw [hTmk]
    exact h2
  · obtain ⟨_, a, b, h1, h2⟩ := set_cargo_second_parse version hb hget
    refine ⟨a, tk, b, h1, ?_⟩
    rw [hTmk]
    exact h2

end Crosspmv

namespace Crosspmv

/-- Claim C2: no-op preservation: whenever the parsed document's located version
(workspace-style placement taking precedence, else the plain `package` placement)
already equals the desired version, `set_cargo_toml_version` succeeds with
`modified = false` and output text byte-identical to the input text. -/
theorem c2_noop_preservation (contents version : String) (t : Tbl)
    (hp : parseDocTree contents = some t) :
    (∀ wsT pT tk, tblGet t "workspace" = some (.table wsT) →
      tblGet wsT "package" = some (.table pT) →
      tblGet pT "version" = some (.str version.data tk) →
      set_cargo_toml_version contents version = .ok (false, contents)) ∧
    (∀ pT tk, tblGet t "workspace" = none →
      tblGet t "package" = some (.table pT) →
      tblGet pT "version" = some (.str version.data tk) →
      set_cargo_toml_version contents version = .ok (false, contents)) := by
  rw [parseDocTree] at hp
  constructor
  · intro wsT pT tk hws hpk hv
    rw [set_cargo_toml_version, hp]
    dsimp only
    rw [set_version_doc, hws]
    dsimp only [Item.as_table_like]
    rw [hpk]
    dsimp only
    rw [set_package_version, hv]
    dsimp only [Item.as_str]
    rw [if_pos rfl]
    rfl
  · intro pT tk hws hpk hv
    rw [set_cargo_toml_version, hp]
    dsimp only
    rw [set_version_doc, hws]
    dsimp only
    rw [hpk]
    dsimp only [Item.as_table_like]
    rw [set_package_version, hv]
    dsimp only [Item.as_str]
    rw [if_pos rfl]
    rfl

/-- Claim C5: the locator's error cascade of `set_cargo_toml_version`: a `workspace`
key that is not table-like fails with `InvalidWorkspaceFieldDataType` (before any
nested package table is consulted); a workspace table without `package` fails with
`MissingPackageField{workspace = true}`; a non-table-like `workspace.package` fails
with `InvalidPackageFieldDataType{workspace = true}`; a document with neither root
key fails with `MissingPackageField{workspace = false}`; in particular the empty
input fails with `MissingPackageField{workspace = false}`. -/
theorem c5_locator_cascade (contents version : String) (t : Tbl)
    (hp : parseDocTree contents = some t) :
    (∀ i, tblGet t "workspace" = some i → i.as_table_like = none →
      set_cargo_toml_version contents version = .error .InvalidWorkspaceFieldDataType) ∧
    (∀ i wsT, tblGet t "workspace" = some i → i.as_table_like = some wsT →
      tblGet wsT "package" = none →
      set_cargo_toml_version contents version = .error (.MissingPackageField true)) ∧
    (∀ i wsT pkgI, tblGet t "workspace" = some i → i.as_table_like = some wsT →
      tblGet wsT "package" = some pkgI → pkgI.as_table_like = none →
      set_cargo_toml_version contents version =
        .error (.InvalidPackageFieldDataType true)) ∧
    (tblGet t "workspace" = none → tblGet t "package" = none →
      set_cargo_toml_version contents version = .error (.MissingPackageField false)) ∧
    (set_cargo_toml_version "" version = .error (.MissingPackageField false)) := by
  rw [parseDocTree] at hp
  refine ⟨?_, ?_, ?_, ?_, ?_⟩
  · intro i hws hts
    rw [set_cargo_toml_version, hp]
    dsimp only
    rw [set_version_doc, hws]
    dsimp only
    rw [hts]
  · intro i wsT hws hts hpk
    rw [set_cargo_toml_version, hp]
    dsimp only
    rw [set_version_doc, hws]
    dsimp only
    rw [hts]
    dsimp only
    rw [hpk]
  · intro i wsT pkgI hws hts hpk hpt
    rw [set_cargo_toml_version, hp]
    dsimp only
    rw [set_version_doc, hws]
    dsimp only
    rw [hts]
    dsimp only
    rw [hpk]
    dsimp only
    rw [hpt]
  · intro hws hpkg
    rw [set_cargo_toml_version, hp]
    dsimp only
    rw [set_version_doc, hws]
    dsimp only
    rw [hpkg]
  · rfl

/-- Claim C9: the Cargo lock-file refresh command is fixed and hard-coded: it is
exactly the program `cargo` with the single argument `check`, independent of any
input (the function takes none). -/
theorem c9_cargo_update_lock_file_command :
    cargo_update_lock_file_command = { program := "cargo", args := ["check"] } := rfl

/-- Claim C8: the aggregation of `CargoTomlError` into `PackageManagerError` is
lossless: the `From` conversion is injective, the wrapped value is recoverable by
matching the `CargoToml` variant, and `Display` of the wrapped error equals
`Display` of the inner error — so the workspace/non-workspace distinction survives
the top-level type. -/
theorem c8_lossless_aggregation :
    (∀ e1 e2 : CargoTomlError,
      packageManagerErrorFromCargo e1 = packageManagerErrorFromCargo e2 → e1 = e2) ∧
    (∀ e : CargoTomlError, (packageManagerErrorFromCargo e).asCargoToml = some e) ∧
    (∀ e : CargoTomlError, (packageManagerErrorFromCargo e).display = e.display) := by
  refine ⟨?_, ?_, ?_⟩
  · intro e1 e2 h
    cases h
    rfl
  · intro e
    rfl
  · intro e
    rfl

/-- Witness for C8 at a concrete workspace-qualified error. -/
theorem c8_lossless_aggregation_witness :
    (CargoTomlError.MissingPackageVersionField true =
      CargoTomlError.MissingPackageVersionField true) ∧
    (packageManagerErrorFromCargo
        (CargoTomlError.MissingPackageVersionField true)).asCargoToml =
      some (CargoTomlError.MissingPackageVersionField true) ∧
    (packageManagerErrorFromCargo
        (CargoTomlError.MissingPackageVersionField true)).display =
      (CargoTomlError.MissingPackageVersionField true).display :=
  ⟨c8_lossless_aggregation.1 (CargoTomlError.MissingPackageVersionField true)
      (CargoTomlError.MissingPackageVersionField true) rfl,
    c8_lossless_aggregation.2.1 (CargoTomlError.MissingPackageVersionField true),
    c8_lossless_aggregation.2.2 (CargoTomlError.MissingPackageVersionField true)⟩

/-- Counterexample to C7 as stated: the `ParseToml` variant delegates `Display` to
the wrapped parse error's own message, which need not mention any quoted dotted
field path — here the wrapped message `boom` contains neither `"package"` nor
`"workspace"`. -/
theorem c7_parse_variant_counterexample :
    listContains (CargoTomlError.display (.ParseToml "boom")).data
      "\"package\"".data = false ∧
    listContains (CargoTomlError.display (.ParseToml "boom")).data
      "\"workspace\"".data = false := by
  constructor <;> decide

/-- Claim C7 (amended): every variant of `CargoTomlError` except the parse-failure
wrapper renders a message in which the exact quoted dotted field path literally
appears — each of the missing-field and wrong-type conditions, crossed with the
workspace flag, is its own variant (the nine are pairwise distinct), and each
message is exactly the appropriate quoted path followed by a description. -/
theorem c7_error_messages_name_field_paths :
    CargoTomlError.display (.MissingPackageField false) =
      "\"package\"" ++ " field not found" ∧
    CargoTomlError.display (.MissingPackageField true) =
      "\"workspace.package\"" ++ " field not found" ∧
    CargoTomlError.display (.MissingPackageVersionField false) =
      "\"package.version\"" ++ " field not found" ∧
    CargoTomlError.display (.MissingPackageVersionField true) =
      "\"workspace.package.version\"" ++ " field not found" ∧
    CargoTomlError.display (.InvalidPackageFieldDataType false) =
      "\"package\"" ++ " field is not a table" ∧
    CargoTomlError.display (.InvalidPackageFieldDataType true) =
      "\"workspace.package\"" ++ " field is not a table" ∧
    CargoTomlError.display (.InvalidPackageVersionFieldDataType false) =
      "\"package.version\"" ++ " field is not a string" ∧
    CargoTomlError.display (.InvalidPackageVersionFieldDataType true) =
      "\"workspace.package.version\"" ++ " field is not a string" ∧
    CargoTomlError.display .InvalidWorkspaceFieldDataType =
      "\"workspace\"" ++ " is not a table" ∧
    ([CargoTomlError.MissingPackageField false, .MissingPackageField true,
      .MissingPackageVersionField false, .MissingPackageVersionField true,
      .InvalidPackageFieldDataType false, .InvalidPackageFieldDataType true,
      .InvalidPackageVersionFieldDataType false,
      .InvalidPackageVersionFieldDataType true,
      .InvalidWorkspaceFieldDataType] : List CargoTomlError).Nodup := by
  refine ⟨rfl, rfl, rfl, rfl, rfl, rfl, rfl, rfl, rfl, ?_⟩
  decide

end Crosspmv

namespace Crosspmv

/-- Witness for C1 at concrete tables: the missing, non-string, equal, and differing
cases, plus success of the document-level cascade for both placements. -/
theorem c1_set_package_version_contract_witness :
    set_package_version [] "1" false = .error (.MissingPackageVersionField false) ∧
    set_package_version [("version", Item.scalar ['1'])] "1" false =
      .error (.InvalidPackageVersionFieldDataType false) ∧
    set_package_version [("version", Item.str "1".data ['"', '1', '"'])] "1" false =
      .ok (false, [("version", Item.str "1".data ['"', '1', '"'])]) ∧
    set_package_version [("version", Item.str "0".data ['"', '0', '"'])] "1" false =
      .ok (true, tblSet [("version", Item.str "0".data ['"', '0', '"'])] "version"
        (.str "1".data (quoteTok "1".data))) ∧
    (∃ m t2, set_version_doc
      [("workspace", Item.table [("package", Item.table
        [("version", Item.str "0".data ['"', '0', '"'])])])] "1" = .ok (m, t2)) ∧
    (∃ m t2, set_version_doc
      [("package", Item.table [("version", Item.str "0".data ['"', '0', '"'])])] "1" =
      .ok (m, t2)) :=
  ⟨(c1_set_package_version_contract [] "1" false).1 rfl,
    (c1_set_package_version_contract [("version", Item.scalar ['1'])] "1" false).2.1
      (Item.scalar ['1']) rfl rfl,
    (c1_set_package_version_contract [("version", Item.str "1".data ['"', '1', '"'])]
      "1" false).2.2.1 "1".data ['"', '1', '"'] rfl rfl,
    (c1_set_package_version_contract [("version", Item.str "0".data ['"', '0', '"'])]
      "1" false).2.2.2.1 "0".data ['"', '0', '"'] rfl (by decide),
    (c1_set_package_version_contract
      [("version", Item.str "0".data ['"', '0', '"'])] "1" false).2.2.2.2.1
      [("workspace", Item.table [("package", Item.table
        [("version", Item.str "0".data ['"', '0', '"'])])])]
      [("package", Item.table [("version", Item.str "0".data ['"', '0', '"'])])]
      "0".data ['"', '0', '"'] rfl rfl rfl,
    (c1_set_package_version_contract
      [("version", Item.str "0".data ['"', '0', '"'])] "1" false).2.2.2.2.2
      [("package", Item.table [("version", Item.str "0".data ['"', '0', '"'])])]
      "0".data ['"', '0', '"'] rfl rfl rfl⟩

/-- Witness for C2: a manifest whose version already equals the target round-trips
byte-identically with `modified = false`. -/
theorem c2_noop_preservation_witness :
    set_cargo_toml_version "[package]\nversion = \"1\"" "1" =
      .ok (false, "[package]\nversion = \"1\"") :=
  (c2_noop_preservation "[package]\nversion = \"1\"" "1"
    [("package", Item.table
      [("version", Item.str "1".data ['"', '1', '"'])])] rfl).2
    [("version", Item.str "1".data ['"', '1', '"'])] ['"', '1', '"'] rfl rfl rfl

/-- Witness for C3: a concrete modified run is idempotent on its own output. -/
theorem c3_idempotence_witness :
    set_cargo_toml_version "[package]\nversion = \"1\"" "1" =
      .ok (false, "[package]\nversion = \"1\"") :=
  c3_idempotence "[package]\nversion = \"0\"" "1" true "[package]\nversion = \"1\"" rfl

/-- Witness for C4 at a document carrying both a workspace override and a plain
package table. -/
theorem c4_workspace_priority_witness :
    ∃ m t2, set_version_doc
      [("workspace", Item.table [("package", Item.table
          [("version", Item.str "0".data ['"', '0', '"'])])]),
        ("package", Item.table [("version", Item.str "9".data ['"', '9', '"'])])]
      "1" = .ok (m, t2) ∧
      tblGet t2 "package" =
        some (Item.table [("version", Item.str "9".data ['"', '9', '"'])]) ∧
      ("0".data = "1".data → m = false ∧
        getEntry t2 ["workspace", "package"] "version" =
          some (.str "0".data ['"', '0', '"'])) ∧
      (¬ "0".data = "1".data → m = true ∧
        getEntry t2 ["workspace", "package"] "version" =
          some (.str "1".data (quoteTok "1".data))) :=
  c4_workspace_priority
    [("workspace", Item.table [("package", Item.table
        [("version", Item.str "0".data ['"', '0', '"'])])]),
      ("package", Item.table [("version", Item.str "9".data ['"', '9', '"'])])]
    "1"
    [("package", Item.table [("version", Item.str "0".data ['"', '0', '"'])])]
    [("version", Item.str "0".data ['"', '0', '"'])]
    "0".data ['"', '0', '"']
    (Item.table [("version", Item.str "9".data ['"', '9', '"'])])
    rfl rfl rfl rfl

/-- Witness for C5: each cascade error at a concrete input, including the empty
input. -/
theorem c5_locator_cascade_witness :
    set_cargo_toml_version "workspace = \"1\"" "9" =
      .error .InvalidWorkspaceFieldDataType ∧
    set_cargo_toml_version "[workspace]" "9" = .error (.MissingPackageField true) ∧
    set_cargo_toml_version "[workspace]\npackage = \"1\"" "9" =
      .error (.InvalidPackageFieldDataType true) ∧
    set_cargo_toml_version "x = \"1\"" "9" = .error (.MissingPackageField false) ∧
    set_cargo_toml_version "" "9" = .error (.MissingPackageField false) :=
  ⟨(c5_locator_cascade "workspace = \"1\"" "9"
      [("workspace", Item.str "1".data ['"', '1', '"'])] rfl).1
      (Item.str "1".data ['"', '1', '"']) rfl rfl,
    (c5_locator_cascade "[workspace]" "9"
      [("workspace", Item.table [])] rfl).2.1 (Item.table []) [] rfl rfl rfl,
    (c5_locator_cascade "[workspace]\npackage = \"1\"" "9"
      [("workspace", Item.table [("package", Item.str "1".data ['"', '1', '"'])])]
      rfl).2.2.1 (Item.table [("package", Item.str "1".data ['"', '1', '"'])])
      [("package", Item.str "1".data ['"', '1', '"'])]
      (Item.str "1".data ['"', '1', '"']) rfl rfl rfl rfl,
    (c5_locator_cascade "x = \"1\"" "9"
      [("x", Item.str "1".data ['"', '1', '"'])] rfl).2.2.2.1 rfl rfl,
    (c5_locator_cascade "x = \"1\"" "9"
      [("x", Item.str "1".data ['"', '1', '"'])] rfl).2.2.2.2⟩

/-- Witness for C6: a concrete modified run splits input and output around the
version token. -/
theorem c6_minimal_diff_witness :
    ∃ a oldTok b, (String.data "[package]\nversion = \"0\"") = a ++ (oldTok ++ b) ∧
      (String.data "[package]\nversion = \"1\"") = a ++ (quoteTok "1".data ++ b) :=
  c6_minimal_diff "[package]\nversion = \"0\"" "1" "[package]\nversion = \"1\"" rfl

/-- Witness for C10: each failing workspace cascade at a concrete document that also
carries a valid plain package table with a string version. -/
theorem c10_workspace_error_no_fallback_witness :
    set_version_doc [("workspace", Item.scalar ['1']),
      ("package", Item.table [("version", Item.str "9".data ['"', '9', '"'])])] "1" =
      .error .InvalidWorkspaceFieldDataType ∧
    set_version_doc [("workspace", Item.table []),
      ("package", Item.table [("version", Item.str "9".data ['"', '9', '"'])])] "1" =
      .error (.MissingPackageField true) ∧
    set_version_doc [("workspace", Item.table [("package", Item.scalar ['1'])]),
      ("package", Item.table [("version", Item.str "9".data ['"', '9', '"'])])] "1" =
      .error (.InvalidPackageFieldDataType true) ∧
    set_version_doc [("workspace", Item.table [("package", Item.table [])]),
      ("package", Item.table [("version", Item.str "9".data ['"', '9', '"'])])] "1" =
      .error (.MissingPackageVersionField true) ∧
    set_version_doc [("workspace", Item.table [("package", Item.table
        [("version", Item.scalar ['1'])])]),
      ("package", Item.table [("version", Item.str "9".data ['"', '9', '"'])])] "1" =
      .error (.InvalidPackageVersionFieldDataType true) :=
  ⟨(c10_workspace_error_no_fallback [("workspace", Item.scalar ['1']),
      ("package", Item.table [("version", Item.str "9".data ['\"', '9', '\"'])])]
      "1" (Item.scalar ['1']) rfl).1 rfl,
    (c10_workspace_error_no_fallback [("workspace", Item.table []),
      ("package", Item.table [("version", Item.str "9".data ['\"', '9', '\"'])])]
      "1" (Item.table []) rfl).2.1 [] rfl rfl,
    (c10_workspace_error_no_fallback
      [("workspace", Item.table [("package", Item.scalar ['1'])]),
        ("package", Item.table [("version", Item.str "9".data ['\"', '9', '\"'])])]
      "1" (Item.table [("package", Item.scalar ['1'])]) rfl).2.2.1
      [("package", Item.scalar ['1'])] (Item.scalar ['1']) rfl rfl rfl,
    (c10_workspace_error_no_fallback
      [("workspace", Item.table [("package", Item.table [])]),
        ("package", Item.table [("version", Item.str "9".data ['\"', '9', '\"'])])]
      "1" (Item.table [("package", Item.table [])]) rfl).2.2.2.1
      [("package", Item.table [])] [] rfl rfl rfl,
    (c10_workspace_error_no_fallback
      [("workspace", Item.table [("package", Item.table
          [("version", Item.scalar ['1'])])]),
        ("package", Item.table [("version", Item.str "9".data ['\"', '9', '\"'])])]
      "1" (Item.table [("package", Item.table [("version", Item.scalar ['1'])])])
      rfl).2.2.2.2
      [("package", Item.table [("version", Item.scalar ['1'])])]
      [("version", Item.scalar ['1'])] (Item.scalar ['1']) rfl rfl rfl rfl⟩

end Crosspmv
